import Mathlib

/-!
Verification of the configuration-resolution and path-mapping engine of
`qsync/sync.py` (the QSync deployment tool), via a shallow embedding in Lean.

Modelling conventions:
* Python strings are `String`; the filesystem is a finite association list
  from an exact path string to a node (`file`, `dir`, or symbolic `link`).
  Path lookup is whole-string (the scenarios of the claims only ever look up
  the exact strings that appear in the mappings).
* `os.path` functions (`join`, `dirname`, `normpath`, `abspath`, `isabs`)
  are translated from CPython's `posixpath` implementation.
* Recursion that Python bounds by runtime state (symlink chains, include
  recursion) is given an explicit fuel parameter; theorems supply enough
  fuel and the fuel-exhaustion outcome is a distinguished error value.
* `list(set(items))` has an implementation-defined enumeration order in
  Python (string hashes are randomised), so set enumeration is modelled by
  an arbitrary function bundled with exactly the guarantees a Python set
  gives: the result consists of elements of the input, is duplicate-free,
  and covers every input element.  Theorems quantify over all such
  enumerations; counterexamples instantiate a concrete one.
-/

set_option maxHeartbeats 1000000

namespace QSync

instance {ε α : Type} [DecidableEq ε] [DecidableEq α] : DecidableEq (Except ε α) := fun x y =>
  match x, y with
  | .ok a, .ok b =>
    if h : a = b then isTrue (by rw [h])
    else isFalse (fun hc => h (Except.ok.inj hc))
  | .error a, .error b =>
    if h : a = b then isTrue (by rw [h])
    else isFalse (fun hc => h (Except.error.inj hc))
  | .ok _, .error _ => isFalse (fun hc => Except.noConfusion hc)
  | .error _, .ok _ => isFalse (fun hc => Except.noConfusion hc)

/-- Kernel-computable `String.startsWith`. -/
def strStartsWith (s pat : String) : Bool :=
  pat.toList.isPrefixOf s.toList

/-- Kernel-computable `String.endsWith`. -/
def strEndsWith (s pat : String) : Bool :=
  pat.toList.isSuffixOf s.toList

/-- Kernel-computable split of a character list at every occurrence of a
separator (the semantics of Python's `str.split` with a one-character
separator: `""` splits to `[""]`, adjacent separators yield empty parts). -/
def splitCharList (sep : Char) : List Char → List (List Char)
  | [] => [[]]
  | c :: rest =>
    if c = sep then [] :: splitCharList sep rest
    else
      match splitCharList sep rest with
      | [] => [[c]]
      | g :: gs => (c :: g) :: gs

/-- Split a string on `/`, as `p.split('/')` does. -/
def splitSlash (p : String) : List String :=
  (splitCharList '/' p.toList).map String.mk

/-- Model of `posixpath.isabs`: a path is absolute iff it starts with a slash. -/
def os_path_isabs (p : String) : Bool :=
  strStartsWith p "/"

/-- Model of `posixpath.join` for two arguments: if `b` is absolute the result
is `b`; otherwise `b` is appended to `a`, inserting a slash unless `a` is empty
or already ends with a slash. -/
def os_path_join (a b : String) : String :=
  if strStartsWith b "/" then b
  else if a = "" ∨ strEndsWith a "/" then a ++ b
  else a ++ "/" ++ b

/-- Characters of a string as a list (helper). -/
def strChars (s : String) : List Char := s.toList

/-- Model of `posixpath.dirname`: everything up to the final slash, with
trailing slashes stripped unless the head is all slashes. -/
def os_path_dirname (p : String) : String :=
  let cs := p.toList
  match (List.range cs.length).filter (fun i => cs.getD i ' ' = '/') |>.getLast? with
  | none => ""
  | some j =>
    let head := cs.take (j + 1)
    if head.any (fun c => c ≠ '/') then
      String.mk ((head.reverse.dropWhile (fun c => c = '/')).reverse)
    else
      String.mk head

/-- One step of `posixpath.normpath`'s component loop. -/
def normpathStep (slashes : Nat) (acc : List String) (comp : String) : List String :=
  if comp = "" ∨ comp = "." then acc
  else if comp ≠ ".." ∨ (slashes = 0 ∧ acc = []) ∨ (acc ≠ [] ∧ acc.getLast? = some "..") then
    acc ++ [comp]
  else if acc ≠ [] then acc.dropLast
  else acc

/-- Model of `posixpath.normpath`: collapse empty and `.` components and
resolve `..` components lexically, keeping the leading-slash count. -/
def posix_normpath (p : String) : String :=
  if p = "" then "."
  else
    let slashes : Nat :=
      if strStartsWith p "//" ∧ ¬ strStartsWith p "///" then 2
      else if strStartsWith p "/" then 1 else 0
    let comps := (splitSlash p).foldl (normpathStep slashes) []
    let res := String.mk (List.replicate slashes '/') ++ String.intercalate "/" comps
    if res = "" then "." else res

/-- Model of `os.path.abspath`: join the working directory onto a relative
path and normalise. -/
def os_path_abspath (cwd p : String) : String :=
  if os_path_isabs p then posix_normpath p
  else posix_normpath (os_path_join cwd p)

/-- Model of `str(pathlib.Path(p).resolve())` for paths that do not traverse
symbolic links (no sitemap path in the claims is a link): absolutise against
the working directory and normalise. -/
def pathlib_resolve (cwd p : String) : String :=
  os_path_abspath cwd p

/-- The components of a `pathlib.PurePosixPath`: an is-absolute flag and the
non-empty, non-`.` path components (`..` is kept, as pathlib does). -/
def pathParts (p : String) : Bool × List String :=
  (strStartsWith p "/", (splitSlash p).filter (fun c => c ≠ "" ∧ c ≠ "."))

/-- Model of `pathlib.Path(p).relative_to(base)` followed by `str`: `none`
models the `ValueError` raised when `base`'s parts are not a prefix of `p`'s
parts (or the anchors differ). -/
def pathlib_relative_to (p base : String) : Option String :=
  let pp := pathParts p
  let bp := pathParts base
  if pp.1 = bp.1 ∧ bp.2.isPrefixOf pp.2 then
    let rest := pp.2.drop bp.2.length
    some (if rest = [] then "." else String.intercalate "/" rest)
  else
    none

/-- ASCII whitespace as matched by Python's `\s` on the command strings the
tool handles. -/
def isPySpace (c : Char) : Bool :=
  c = ' ' ∨ c = '\t' ∨ c = '\n' ∨ c = '\r' ∨ c = '\x0b' ∨ c = '\x0c'

/-- Model of `str.strip()` restricted to ASCII whitespace. -/
def py_strip (s : String) : List Char :=
  ((s.toList.dropWhile isPySpace).reverse.dropWhile isPySpace).reverse

/-- Collapse every maximal run of whitespace to a single space, as
`re.sub(r'\s+', ' ', s)` does. -/
def collapse_ws : List Char → List Char
  | [] => []
  | c :: rest =>
    if isPySpace c then ' ' :: collapse_ws (rest.dropWhile isPySpace)
    else c :: collapse_ws rest
termination_by l => l.length
decreasing_by
  · exact Nat.lt_succ_of_le (List.Sublist.length_le (List.dropWhile_sublist isPySpace))
  · exact Nat.lt_succ_of_le (Nat.le_refl rest.length)

/-- Model of `ShellCmd.__init__`'s normalisation: strip then collapse internal
whitespace runs.  `ShellCmd` equality and hashing are on this string. -/
def mkShellCmd (cmd : String) : String :=
  String.mk (collapse_ws (py_strip cmd))

/-- The data of a `FileMapping` object: `(project_root, local_path,
remote_path)`.  `FileMapping.__eq__`/`__hash__` are on this triple. -/
structure FileMapping where
  project_root : String
  local_path : String
  remote_path : String
deriving DecidableEq, Repr

/-- The data of a `SitemapUpdateTask` object: the canonicalised `path`, the
display-only `relative_path`, and the `loc` list.  `__eq__`/`__hash__` are on
`path` alone. -/
structure SitemapUpdateTask where
  path : String
  relative_path : String
  loc : List String
deriving DecidableEq, Repr

/-- Model of `SitemapUpdateTask.__init__`: `path` is canonicalised with
`pathlib.Path(path).resolve()`; `relative_path` is `path` made relative to
`root_path` when `root_path` is truthy and the relativisation succeeds, and
the raw `path` otherwise; `loc` is copied. -/
def mkSitemapUpdateTask (cwd path : String) (loc : List String)
    (root_path : Option String) : SitemapUpdateTask :=
  let rel :=
    match root_path with
    | some r =>
      if r ≠ "" then
        match pathlib_relative_to path r with
        | some s => s
        | none => path
      else path
    | none => path
  ⟨pathlib_resolve cwd path, rel, loc⟩

/-- A Python object of one of the kinds that flow through the merge lists:
a plain command string, a `ShellCmd`, a `FileMapping`, a `DirMapping`
(identified by an object id, since `DirMapping` defines no `__eq__`), or a
`SitemapUpdateTask`. -/
inductive PyObj where
  | str (s : String)
  | shellCmd (cmd : String)
  | fileMapping (fm : FileMapping)
  | dirMapping (fm : FileMapping) (oid : Nat)
  | task (t : SitemapUpdateTask)
deriving DecidableEq, Repr

/-- Python `==` on these objects: strings and `ShellCmd`s compare their
string, `FileMapping` compares its triple, `DirMapping` falls back to object
identity, `SitemapUpdateTask` compares canonical `path` only, and objects of
different kinds are unequal. -/
def pyEq : PyObj → PyObj → Bool
  | .str a, .str b => a = b
  | .shellCmd a, .shellCmd b => a = b
  | .fileMapping a, .fileMapping b => a = b
  | .dirMapping _ o, .dirMapping _ o' => o = o'
  | .task t, .task t' => t.path = t'.path
  | _, _ => false

/-- Whether the object's class subclasses `Deduplicatable` (`ShellCmd`,
`FileMapping`, `SitemapUpdateTask` do; `str` and `DirMapping` do not). -/
def pyIsDeduplicatable : PyObj → Bool
  | .str _ => false
  | .dirMapping _ _ => false
  | _ => true

/-- Whether the object is a `SitemapUpdateTask` (the `isinstance` dispatch of
`Deduplicatable.deduplicate`). -/
def pyIsTask : PyObj → Bool
  | .task _ => true
  | _ => false

/-- Project a `SitemapUpdateTask` object out of a `PyObj`. -/
def asTask : PyObj → Option SitemapUpdateTask
  | .task t => some t
  | _ => none

/-- An admissible enumeration of a Python set built from a list, relative to
equality test `r`: the result consists of elements of the input, is
duplicate-free up to `r`, and covers every input element.  `list(set(l))`
yields exactly such a list in an implementation-defined order. -/
structure EnumBy (α : Type) (r : α → α → Bool) where
  enum : List α → List α
  sub : ∀ l x, x ∈ enum l → x ∈ l
  cover : ∀ l x, x ∈ l → ∃ y, y ∈ enum l ∧ r x y = true
  nodup : ∀ l, (enum l).Pairwise (fun a b => r a b = false)

/-- Keep-first deduplication relative to an equality test; one admissible
set enumeration. -/
def dedupBy (r : α → α → Bool) : List α → List α
  | [] => []
  | a :: l => a :: dedupBy r (l.filter (fun b => !(r a b)))
termination_by l => l.length
decreasing_by
  exact Nat.lt_succ_of_le (List.Sublist.length_le (List.filter_sublist l))

theorem dedupBy_sub (r : α → α → Bool) :
    ∀ l x, x ∈ dedupBy r l → x ∈ l := by
  intro l
  induction l using dedupBy.induct r with
  | case1 => intro x hx; simp [dedupBy] at hx
  | case2 a l ih =>
    intro x hx
    rw [dedupBy] at hx
    rcases List.mem_cons.mp hx with h | h
    · exact h ▸ List.mem_cons_self a l
    · exact List.mem_cons_of_mem a (List.mem_of_mem_filter (ih x h))

theorem dedupBy_cover (r : α → α → Bool) (hrefl : ∀ a, r a a = true)
    (hsymm : ∀ a b, r a b = r b a) :
    ∀ l x, x ∈ l → ∃ y, y ∈ dedupBy r l ∧ r x y = true := by
  intro l
  induction l using dedupBy.induct r with
  | case1 => intro x hx; simp at hx
  | case2 a l ih =>
    intro x hx
    rw [dedupBy]
    rcases List.mem_cons.mp hx with h | h
    · exact ⟨a, List.mem_cons_self _ _, h ▸ hrefl x⟩
    · by_cases hra : r a x = true
      · exact ⟨a, List.mem_cons_self _ _, (hsymm x a).trans hra⟩
      · have hx' : x ∈ l.filter (fun b => !(r a b)) := by
          refine List.mem_filter.mpr ⟨h, ?_⟩
          simp [hra]
        obtain ⟨y, hy, hry⟩ := ih x hx'
        exact ⟨y, List.mem_cons_of_mem _ hy, hry⟩

theorem dedupBy_nodup (r : α → α → Bool) :
    ∀ l, (dedupBy r l).Pairwise (fun a b => r a b = false) := by
  intro l
  induction l using dedupBy.induct r with
  | case1 => simp [dedupBy]
  | case2 a l ih =>
    rw [dedupBy]
    refine List.pairwise_cons.mpr ⟨?_, ih⟩
    intro b hb
    have hb' := dedupBy_sub r _ b hb
    have := (List.mem_filter.mp hb').2
    simpa using this

/-- Keep-first deduplication with an explicit seen-accumulator; structurally
recursive, so concrete instances evaluate inside the kernel. -/
def dedupKeepFirstAux (r : α → α → Bool) : List α → List α → List α
  | _, [] => []
  | seen, a :: l =>
    if seen.any (fun b => r b a) then dedupKeepFirstAux r seen l
    else a :: dedupKeepFirstAux r (a :: seen) l

/-- Keep-first deduplication (accumulator version). -/
def dedupKeepFirst (r : α → α → Bool) (l : List α) : List α :=
  dedupKeepFirstAux r [] l

theorem dedupKeepFirstAux_sub (r : α → α → Bool) :
    ∀ (l seen : List α) (x : α), x ∈ dedupKeepFirstAux r seen l → x ∈ l := by
  intro l
  induction l with
  | nil => intro seen x hx; simp [dedupKeepFirstAux] at hx
  | cons a l ih =>
    intro seen x hx
    rw [dedupKeepFirstAux] at hx
    by_cases h : seen.any (fun b => r b a) = true
    · rw [if_pos h] at hx
      exact List.mem_cons_of_mem _ (ih seen x hx)
    · rw [if_neg h] at hx
      rcases List.mem_cons.mp hx with hx | hx
      · exact hx ▸ List.mem_cons_self _ _
      · exact List.mem_cons_of_mem _ (ih _ x hx)

theorem dedupKeepFirstAux_not_rel (r : α → α → Bool) :
    ∀ (l seen : List α) (x : α), x ∈ dedupKeepFirstAux r seen l →
      ∀ s ∈ seen, r s x = false := by
  intro l
  induction l with
  | nil => intro seen x hx; simp [dedupKeepFirstAux] at hx
  | cons a l ih =>
    intro seen x hx s hs
    rw [dedupKeepFirstAux] at hx
    by_cases h : seen.any (fun b => r b a) = true
    · rw [if_pos h] at hx
      exact ih seen x hx s hs
    · rw [if_neg h] at hx
      rcases List.mem_cons.mp hx with hx | hx
      · subst hx
        cases hr : r s x
        · rfl
        · exact absurd (List.any_eq_true.mpr ⟨s, hs, hr⟩) h
      · exact ih (a :: seen) x hx s (List.mem_cons_of_mem _ hs)

theorem dedupKeepFirstAux_nodup (r : α → α → Bool) :
    ∀ (l seen : List α),
      (dedupKeepFirstAux r seen l).Pairwise (fun a b => r a b = false) := by
  intro l
  induction l with
  | nil => intro seen; simp [dedupKeepFirstAux]
  | cons a l ih =>
    intro seen
    rw [dedupKeepFirstAux]
    by_cases h : seen.any (fun b => r b a) = true
    · rw [if_pos h]; exact ih seen
    · rw [if_neg h]
      refine List.pairwise_cons.mpr ⟨?_, ih (a :: seen)⟩
      intro b hb
      exact dedupKeepFirstAux_not_rel r l (a :: seen) b hb a (List.mem_cons_self _ _)

theorem dedupKeepFirstAux_cover (r : α → α → Bool) (hrefl : ∀ a, r a a = true)
    (hsymm : ∀ a b, r a b = r b a) :
    ∀ (l seen : List α) (x : α), x ∈ l →
      (∃ y, y ∈ dedupKeepFirstAux r seen l ∧ r x y = true) ∨
      (∃ s, s ∈ seen ∧ r x s = true) := by
  intro l
  induction l with
  | nil => intro seen x hx; simp at hx
  | cons a l ih =>
    intro seen x hx
    rw [dedupKeepFirstAux]
    by_cases h : seen.any (fun b => r b a) = true
    · rw [if_pos h]
      rcases List.mem_cons.mp hx with hx | hx
      · subst hx
        obtain ⟨s, hs, hrs⟩ := List.any_eq_true.mp h
        exact Or.inr ⟨s, hs, (hsymm x s).trans hrs⟩
      · exact ih seen x hx
    · rw [if_neg h]
      rcases List.mem_cons.mp hx with hx | hx
      · subst hx
        exact Or.inl ⟨x, List.mem_cons_self _ _, hrefl x⟩
      · rcases ih (a :: seen) x hx with hy | ⟨s, hs, hrs⟩
        · obtain ⟨y, hy, hr⟩ := hy
          exact Or.inl ⟨y, List.mem_cons_of_mem _ hy, hr⟩
        · rcases List.mem_cons.mp hs with hs | hs
          · exact Or.inl ⟨a, List.mem_cons_self _ _, hs ▸ hrs⟩
          · exact Or.inr ⟨s, hs, hrs⟩

theorem pyEq_refl (a : PyObj) : pyEq a a = true := by
  cases a <;> simp [pyEq]

theorem pyEq_symm (a b : PyObj) : pyEq a b = pyEq b a := by
  cases a <;> cases b <;> simp [pyEq] <;> constructor <;> (intro h; exact h.symm)

/-- The keep-first enumeration packaged as an admissible set enumeration for
`String` with structural equality. -/
def strEnum0 : EnumBy String (fun a b => a = b) where
  enum := dedupKeepFirst (fun a b => a = b)
  sub := fun l x hx => dedupKeepFirstAux_sub _ l [] x hx
  cover := fun l x hx => by
    rcases dedupKeepFirstAux_cover (fun a b : String => a = b) (by simp)
        (by intro a b; by_cases h : a = b <;> simp [h]; exact fun h' => h h'.symm)
        l [] x hx with h | ⟨s, hs, _⟩
    · exact h
    · simp at hs
  nodup := fun l => dedupKeepFirstAux_nodup _ l []

/-- The keep-first enumeration packaged as an admissible set enumeration for
`PyObj` with Python `==`. -/
def pyEnum0 : EnumBy PyObj pyEq where
  enum := dedupKeepFirst pyEq
  sub := fun l x hx => dedupKeepFirstAux_sub _ l [] x hx
  cover := fun l x hx => by
    rcases dedupKeepFirstAux_cover pyEq pyEq_refl pyEq_symm l [] x hx with h | ⟨s, hs, _⟩
    · exact h
    · simp at hs
  nodup := fun l => dedupKeepFirstAux_nodup _ l []

/-- Lookup in the insertion-ordered dict `path_dict` of
`deduplicate_sitemaps`. -/
def assocHas (acc : List (String × SitemapUpdateTask)) (k : String) : Bool :=
  acc.any (fun e => e.1 = k)

/-- Update the entry at key `k` in place (dict assignment on an existing
key keeps its position): replace its task's `loc` with the enumeration of
the union of the old and new `loc` sets. -/
def assocUpdateLoc (Es : EnumBy String (fun a b => a = b)) :
    List (String × SitemapUpdateTask) → String → List String →
    List (String × SitemapUpdateTask)
  | [], _, _ => []
  | (k, v) :: rest, key, nl =>
    if k = key then (k, { v with loc := Es.enum (v.loc ++ nl) }) :: rest
    else (k, v) :: assocUpdateLoc Es rest key nl

/-- The loop of `SitemapUpdateTask.deduplicate_sitemaps`: an
insertion-ordered dict keyed by `item.path`.  A repeated path merges `loc`
sets (`list(existing.union(new))`); a new path inserts a freshly constructed
task, passing the first-seen task's `relative_path` as `root_path`. -/
def dedupSitemapsFold (cwd : String) (Es : EnumBy String (fun a b => a = b)) :
    List SitemapUpdateTask → List (String × SitemapUpdateTask) →
    List (String × SitemapUpdateTask)
  | [], acc => acc
  | t :: ts, acc =>
    if assocHas acc t.path then
      dedupSitemapsFold cwd Es ts (assocUpdateLoc Es acc t.path t.loc)
    else
      dedupSitemapsFold cwd Es ts
        (acc ++ [(t.path, mkSitemapUpdateTask cwd t.path t.loc (some t.relative_path))])

/-- Model of `SitemapUpdateTask.deduplicate_sitemaps`:
`list(path_dict.values())` after the grouping loop. -/
def deduplicate_sitemaps (cwd : String) (Es : EnumBy String (fun a b => a = b))
    (items : List SitemapUpdateTask) : List SitemapUpdateTask :=
  (dedupSitemapsFold cwd Es items []).map Prod.snd

/-- Model of `Deduplicatable.deduplicate`: empty list stays empty; a list
whose first element is a `SitemapUpdateTask` goes through
`deduplicate_sitemaps` (the real lists are homogeneous; non-task elements
would crash Python and are dropped here); anything else becomes
`list(set(items))`, i.e. an admissible set enumeration. -/
def Deduplicatable_deduplicate (Ep : EnumBy PyObj pyEq)
    (Es : EnumBy String (fun a b => a = b)) (cwd : String)
    (items : List PyObj) : List PyObj :=
  match items with
  | [] => []
  | (.task _) :: _ =>
    (deduplicate_sitemaps cwd Es (items.filterMap asTask)).map PyObj.task
  | _ :: _ => Ep.enum items

/-- A filesystem node: a regular file, a directory, or a symbolic link with a
target string.  `readable = false` marks a link on which `os.readlink` raises
`OSError` even though the OS itself can traverse it. -/
inductive FsNode where
  | file
  | dir
  | link (target : String) (readable : Bool)
deriving DecidableEq, Repr

/-- A filesystem: a finite map from exact path strings to nodes. -/
abbrev Fs := List (String × FsNode)

/-- Node at an exact path string. -/
def fsLookup (fs : Fs) (p : String) : Option FsNode :=
  (fs.find? (fun e => e.1 = p)).map Prod.snd

/-- The OS's resolution of a link target found at path `p`: a relative target
is interpreted against the link's own directory. -/
def link_dest (p target : String) : String :=
  if os_path_isabs target then target
  else os_path_join (os_path_dirname p) target

/-- Link-following with fuel, used to model the `stat` underlying
`os.path.exists` (and `isfile`/`isdir`): follow links until a file or
directory is reached; a missing path, or a chain that exhausts the fuel —
which, with fuel exceeding the filesystem size, means a cycle (`ELOOP`) —
gives `false`. -/
def followExists (fs : Fs) : Nat → String → Bool
  | 0, _ => false
  | fuel + 1, p =>
    match fsLookup fs p with
    | none => false
    | some .file => true
    | some .dir => true
    | some (.link t _) => followExists fs fuel (link_dest p t)

/-- Model of `os.path.exists`: link-following with fuel one more than the
filesystem size, so exhaustion can only mean a revisit, matching `ELOOP`. -/
def os_path_exists (fs : Fs) (p : String) : Bool :=
  followExists fs (fs.length + 1) p

/-- The marker CPython strips from link targets
(`target.startswith('\\\\?\\')` in the source, i.e. the four characters
backslash backslash question backslash). -/
def winMarker : String := "\\\\?\\"

/-- Outcomes of `_resolve_symlinks` other than a normal return: `bareRaise`
models the bare `raise` statement hit when the resolved target is a
directory (at runtime a `RuntimeError`, since no exception is active), and
`fuelOut` is the modelling artefact for exhausted fuel. -/
inductive ResolveErr where
  | bareRaise
  | fuelOut
deriving DecidableEq, Repr

/-- Model of `_resolve_symlinks(project_root, local_path, remote_path,
visited)`: returns `none` where Python returns `None` (cycle detected,
missing path, unreadable link), the triple where Python returns it, and
`.error .bareRaise` where Python executes the bare `raise` on a directory.
`visited` holds `os.path.abspath` forms; the recursive call passes the
link's computed target with an empty root and a copy of the visited set. -/
def _resolve_symlinks (fs : Fs) (cwd : String) :
    Nat → String → String → String → List String →
    Except ResolveErr (Option (String × String × String))
  | 0, _, _, _, _ => .error .fuelOut
  | fuel + 1, project_root, local_path, remote_path, visited =>
    let full_local_path := os_path_join project_root local_path
    let abs_path := os_path_abspath cwd full_local_path
    if abs_path ∈ visited then .ok none
    else
      let visited' := abs_path :: visited
      if ¬ os_path_exists fs full_local_path then .ok none
      else
        match fsLookup fs full_local_path with
        | some (.link target readable) =>
          if readable then
            let t1 := if strStartsWith target winMarker then target.drop 4 else target
            let t2 := if os_path_isabs t1 then t1
                      else os_path_join (os_path_dirname full_local_path) t1
            _resolve_symlinks fs cwd fuel "" t2 remote_path visited'
          else .ok none
        | some .file => .ok (some (project_root, local_path, remote_path))
        | some .dir => .error .bareRaise
        | none => .ok none

/-- Model of `FileMapping.__iter__`: a single yield of whatever
`_resolve_symlinks` returns (fresh empty visited set), as a one-element
list; the bare `raise` aborts the iteration. -/
def FileMapping_iter (fs : Fs) (cwd : String) (fuel : Nat) (fm : FileMapping) :
    Except ResolveErr (List (Option (String × String × String))) :=
  (_resolve_symlinks fs cwd fuel fm.project_root fm.local_path fm.remote_path []).map
    (fun r => [r])

/-- The inner item loop of `create_tar_archive`: skip `None` items, skip
items whose joined local path does not exist, and collect
`(full_local_path, arcname)` pairs in order. -/
def tarItems (fs : Fs) (items : List (Option (String × String × String))) :
    List (String × String) :=
  items.foldl
    (fun acc item =>
      match item with
      | none => acc
      | some (root, src_path, dst_path) =>
        let full_local_path := os_path_join root src_path
        if os_path_exists fs full_local_path then acc ++ [(full_local_path, dst_path)]
        else acc)
    []

/-- Model of the member-selection loop of `create_tar_archive`, restricted to
`FileMapping`s (directory walking is out of scope of the claims): the
ordered list of `(full_local_path, arcname)` members added to the archive. -/
def create_tar_archive (fs : Fs) (cwd : String) (fuel : Nat) :
    List FileMapping → Except ResolveErr (List (String × String))
  | [] => .ok []
  | m :: ms => do
    let items ← FileMapping_iter fs cwd fuel m
    let rest ← create_tar_archive fs cwd fuel ms
    return tarItems fs items ++ rest

/-- The `loc` value of a sitemap entry: either a scalar string (the
misconfiguration `load_config` rejects) or a sequence of URL strings. -/
inductive LocVal where
  | str (s : String)
  | list (l : List String)
deriving DecidableEq, Repr

/-- One parsed entry of the `sitemaps` sequence; `none` fields model absent
keys. -/
structure SitemapEntry where
  path : Option String := none
  loc : Option LocVal := none
  target : Option String := none
deriving DecidableEq, Repr

/-- A parsed YAML configuration document, before resolution.  `none` models
an absent key. -/
structure RawConfig where
  remote_host : Option String := none
  temp_dir : Option String := none
  project_root : Option String := none
  «include» : Option (List String) := none
  resources_files : List (String × String) := []
  resources_dirs : List (String × String) := []
  pre_commands : Option (List String) := none
  local_pre_commands : Option (List String) := none
  post_commands : Option (List String) := none
  local_post_commands : Option (List String) := none
  sitemaps : Option (List SitemapEntry) := none
deriving DecidableEq, Repr

/-- The config dict as `load_config` returns it: the raw fields plus the
derived `_file_mappings`, `_all_sitemaps` and `_deduplicatable_files` lists
(always present).  Command lists hold `str` objects; mapping lists hold
`FileMapping`/`DirMapping` objects; sitemap lists hold task objects. -/
structure Config where
  remote_host : Option String := none
  temp_dir : Option String := none
  project_root : Option String := none
  «include» : Option (List String) := none
  resources_files : List (String × String) := []
  resources_dirs : List (String × String) := []
  sitemaps : Option (List SitemapEntry) := none
  pre_commands : Option (List PyObj) := none
  local_pre_commands : Option (List PyObj) := none
  post_commands : Option (List PyObj) := none
  local_post_commands : Option (List PyObj) := none
  file_mappings : List PyObj := []
  all_sitemaps : List PyObj := []
  deduplicatable_files : List PyObj := []
deriving DecidableEq, Repr

/-- Errors of `load_config`: the cyclic-include `ValueError`, a missing
config file (`open` fails), the scalar-`loc` `ValueError`, and the fuel
artefact. -/
inductive LoadErr where
  | cyclicInclude
  | fileNotFound
  | locNotList
  | fuelOut
deriving DecidableEq, Repr

/-- The mutable state threaded through `load_config`: the shared
`visited_paths` set (of `os.path.abspath` forms) and an object-id counter
supplying the identities of freshly created `DirMapping` objects. -/
structure LoadState where
  visited : List String
  oid : Nat
deriving DecidableEq, Repr

/-- Lookup of a config document by the exact path string passed to `open`. -/
def cfgLookup (cfgFs : List (String × RawConfig)) (p : String) :
    Option RawConfig :=
  (cfgFs.find? (fun e => e.1 = p)).map Prod.snd

/-- Model of `create_file_mappings`: one `FileMapping` per `resources.files`
entry then one `DirMapping` per `resources.dirs` entry, in dict order,
tagged with the document's `project_root`; returns the new object-id
counter. -/
def create_file_mappings (resources_files resources_dirs : List (String × String))
    (project_root : String) (oid : Nat) : List PyObj × Nat :=
  let files := resources_files.map (fun e => PyObj.fileMapping ⟨project_root, e.1, e.2⟩)
  let dirs := resources_dirs.enum.map
    (fun e => PyObj.dirMapping ⟨project_root, e.2.1, e.2.2⟩ (oid + e.1))
  (files ++ dirs, oid + resources_dirs.length)

/-- The sitemap-processing loop of `load_config`: entries with both `path`
and `loc` keys build a `SitemapUpdateTask` (raising the `ValueError` modelled
by `locNotList` when `loc` is a scalar string) and, when a `target` key is
present, also a `FileMapping('', path, target)`; entries missing `path` or
`loc` are skipped with a warning.  Returns `(_all_sitemaps,
_deduplicatable_files)`. -/
def process_sitemaps (cwd : String) :
    List SitemapEntry → Except LoadErr (List PyObj × List PyObj)
  | [] => .ok ([], [])
  | e :: es =>
    match e.path, e.loc with
    | some p, some lv =>
      match lv with
      | .str _ => .error .locNotList
      | .list l => do
        let (ts, dfs) ← process_sitemaps cwd es
        let t := PyObj.task (mkSitemapUpdateTask cwd p l none)
        let df := match e.target with
          | some tg => [PyObj.fileMapping ⟨"", p, tg⟩]
          | none => []
        return (t :: ts, df ++ dfs)
    | _, _ => process_sitemaps cwd es

/-- The contribution of one sitemap entry to `_all_sitemaps` (derived
characterisation used to state which entries are kept). -/
def entryTask (cwd : String) (e : SitemapEntry) : Option PyObj :=
  match e.path, e.loc with
  | some p, some (.list l) => some (PyObj.task (mkSitemapUpdateTask cwd p l none))
  | _, _ => none

/-- The contribution of one sitemap entry to `_deduplicatable_files`
(derived characterisation). -/
def entryDFiles (e : SitemapEntry) : List PyObj :=
  match e.path, e.loc, e.target with
  | some p, some (.list _), some tg => [PyObj.fileMapping ⟨"", p, tg⟩]
  | _, _, _ => []

/-- A config dict restricted to the seven keys `_merge_listdict` touches:
an association list from key to the key's value (`none` for an absent key). -/
abbrev MDict := List (String × Option (List PyObj))

/-- Python `key in d and d[key]` access: `some v` iff the key is present,
with its value. -/
def dictGet (d : MDict) (k : String) : Option (Option (List PyObj)) :=
  (d.find? (fun e => e.1 = k)).map Prod.snd

/-- Dict assignment `d[k] = v`: overwrite in place, or append a new key. -/
def dictSet (d : MDict) (k : String) (v : Option (List PyObj)) : MDict :=
  if (d.find? (fun e => e.1 = k)).isSome then
    d.map (fun e => if e.1 = k then (k, v) else e)
  else d ++ [(k, v)]

/-- The view of a resolved config as the dict `_merge_listdict` reads: the
four command keys may be absent, the three derived keys are always
present. -/
def Config.mergeDict (c : Config) : MDict :=
  [("pre_commands", c.pre_commands),
   ("local_pre_commands", c.local_pre_commands),
   ("_file_mappings", some c.file_mappings),
   ("post_commands", c.post_commands),
   ("local_post_commands", c.local_post_commands),
   ("_all_sitemaps", some c.all_sitemaps),
   ("_deduplicatable_files", some c.deduplicatable_files)]

/-- The `vs` accumulation of `_merge_listdict`: extend with `d[key]` for
every dict where the key is present and not `None`, in document order. -/
def merge_vs (ds : List MDict) (key : String) : List PyObj :=
  ds.foldl
    (fun acc d =>
      match dictGet d key with
      | some (some l) => acc ++ l
      | _ => acc)
    []

/-- The key list `_merge_listdict` is called with. -/
def mergeKeys : List String :=
  ["pre_commands", "local_pre_commands", "_file_mappings", "post_commands",
   "local_post_commands", "_all_sitemaps", "_deduplicatable_files"]

/-- One key of the `_merge_listdict` loop: concatenate the key's lists
across all dicts and, when the result is non-empty, store it, deduplicated
first iff its first element is a `Deduplicatable`. -/
def merge_key_step (Ep : EnumBy PyObj pyEq) (Es : EnumBy String (fun a b => a = b))
    (cwd : String) (ds : List MDict) (merged : MDict) (key : String) : MDict :=
  match merge_vs ds key with
  | [] => merged
  | v0 :: _ =>
    dictSet merged key
      (some (if pyIsDeduplicatable v0 then Deduplicatable_deduplicate Ep Es cwd (merge_vs ds key)
             else merge_vs ds key))

/-- Model of `_merge_listdict`: start from a copy of the last dict and run
the per-key loop over the given keys. -/
def _merge_listdict (Ep : EnumBy PyObj pyEq) (Es : EnumBy String (fun a b => a = b))
    (cwd : String) (ds : List MDict) (keys : List String) : MDict :=
  keys.foldl (merge_key_step Ep Es cwd ds) (ds.getLastD [])

/-- Rebuild the resolved document from the merged dict: scalar and raw
fields come from the current document (`ds[-1].copy()`), the seven list
fields from the merge. -/
def mergeConfigs (Ep : EnumBy PyObj pyEq) (Es : EnumBy String (fun a b => a = b))
    (cwd : String) (ds : List Config) : Config :=
  let current := ds.getLastD {}
  let md := _merge_listdict Ep Es cwd (ds.map Config.mergeDict) mergeKeys
  { current with
    pre_commands := (dictGet md "pre_commands").getD none
    local_pre_commands := (dictGet md "local_pre_commands").getD none
    post_commands := (dictGet md "post_commands").getD none
    local_post_commands := (dictGet md "local_post_commands").getD none
    file_mappings := ((dictGet md "_file_mappings").getD none).getD []
    all_sitemaps := ((dictGet md "_all_sitemaps").getD none).getD []
    deduplicatable_files := ((dictGet md "_deduplicatable_files").getD none).getD [] }

/-- The include-path resolution of the include loop: relative entries are
joined onto the including document's `project_root`. -/
def resolveIncludePath (project_root ip : String) : String :=
  if os_path_isabs ip then ip else os_path_join project_root ip

/-- The include loop of `load_config`: resolve each entry and run the loader
(the recursive `load_config`), threading the shared state and collecting the
resolved sub-documents in order; an error aborts the loop. -/
def loadIncludes (loader : String → LoadState → (Except LoadErr Config) × LoadState)
    (project_root : String) :
    List String → LoadState → (Except LoadErr (List Config)) × LoadState
  | [], st => (.ok [], st)
  | ip :: ips, st =>
    match loader (resolveIncludePath project_root ip) st with
    | (.error e, st') => (.error e, st')
    | (.ok cfg, st') =>
      match loadIncludes loader project_root ips st' with
      | (.error e, st'') => (.error e, st'')
      | (.ok cfgs, st'') => (.ok (cfg :: cfgs), st'')

/-- Model of `load_config(config_path, visited_paths)`.  The absolute form
of the path is checked against, then added to, the shared visited set; the
document is looked up; `_file_mappings`, `_all_sitemaps` and
`_deduplicatable_files` are built; without an `include` key the path is
released and the document returned; otherwise the includes are resolved
recursively, the path is released, and the documents are merged.  On any
error the visited set is left exactly as Python's in-place mutations leave
it (no removal happens on an exception path). -/
def load_config (Ep : EnumBy PyObj pyEq) (Es : EnumBy String (fun a b => a = b))
    (cfgFs : List (String × RawConfig)) (cwd : String) :
    Nat → String → LoadState → (Except LoadErr Config) × LoadState
  | 0, _, st => (.error .fuelOut, st)
  | fuel + 1, config_path, st =>
    let abs_config_path := os_path_abspath cwd config_path
    if abs_config_path ∈ st.visited then (.error .cyclicInclude, st)
    else
      let st1 : LoadState := ⟨abs_config_path :: st.visited, st.oid⟩
      match cfgLookup cfgFs config_path with
      | none => (.error .fileNotFound, st1)
      | some raw =>
        let (fmaps, oid1) :=
          create_file_mappings raw.resources_files raw.resources_dirs
            (raw.project_root.getD "") st1.oid
        match process_sitemaps cwd (raw.sitemaps.getD []) with
        | .error e => (.error e, ⟨st1.visited, oid1⟩)
        | .ok (tasks, dfiles) =>
          let cfg : Config :=
            { remote_host := raw.remote_host
              temp_dir := raw.temp_dir
              project_root := raw.project_root
              «include» := raw.«include»
              resources_files := raw.resources_files
              resources_dirs := raw.resources_dirs
              sitemaps := raw.sitemaps
              pre_commands := raw.pre_commands.map (fun l => l.map PyObj.str)
              local_pre_commands := raw.local_pre_commands.map (fun l => l.map PyObj.str)
              post_commands := raw.post_commands.map (fun l => l.map PyObj.str)
              local_post_commands := raw.local_post_commands.map (fun l => l.map PyObj.str)
              file_mappings := fmaps
              all_sitemaps := tasks
              deduplicatable_files := dfiles }
          let st2 : LoadState := ⟨st1.visited, oid1⟩
          match raw.«include» with
          | none => (.ok cfg, ⟨st2.visited.erase abs_config_path, st2.oid⟩)
          | some ips =>
            match loadIncludes (fun p s => load_config Ep Es cfgFs cwd fuel p s)
                (raw.project_root.getD "") ips st2 with
            | (.error e, st3) => (.error e, st3)
            | (.ok included, st3) =>
              let st4 : LoadState := ⟨st3.visited.erase abs_config_path, st3.oid⟩
              (.ok (mergeConfigs Ep Es cwd (included ++ [cfg])), st4)

/-- Whether a sitemap entry triggers the scalar-`loc` `ValueError`: both keys
present and `loc` a scalar string. -/
def entryBad (e : SitemapEntry) : Bool :=
  e.path.isSome && (match e.loc with
    | some (.str _) => true
    | _ => false)

/-- A symlink chain in the filesystem: `q :: rest` is a chain iff each
element but the last holds a readable link (with no extended-path marker)
whose computed destination is the next element, and the last element holds
node `final`. -/
def isLinkChainB (fs : Fs) (final : FsNode) : List String → Bool
  | [] => false
  | [q] => fsLookup fs q = some final
  | q :: q' :: rest =>
    (match fsLookup fs q with
     | some (.link t true) => (!(strStartsWith t winMarker)) && (link_dest q t = q')
     | _ => false) && isLinkChainB fs final (q' :: rest)

/-- The value `_resolve_symlinks` produces at the end of a chain whose last
node is `final`, when called with root `root` and local path `locl`: the
triple for a file, the bare `raise` for a directory. -/
def resolveTerminal (final : FsNode) (root locl remote : String) :
    Except ResolveErr (Option (String × String × String)) :=
  match final with
  | .file => .ok (some (root, locl, remote))
  | .dir => .error .bareRaise
  | .link _ _ => .ok none

/-- A document whose only content is a single include of `next`. -/
def incDoc (next : String) : RawConfig :=
  { «include» := some [next] }

/-- The cyclic include graph over the non-empty path list `first :: rest`:
each document includes the next one and the last includes `first` again. -/
def ringFs (first : String) : List String → List (String × RawConfig)
  | [] => []
  | p :: rest => (p, incDoc (rest.headD first)) :: ringFs first rest

/-- The underlying list of an optional list value (absent and `None` keys
both contribute nothing to a merge). -/
def optList (o : Option (List PyObj)) : List PyObj :=
  o.getD []

/-- Comparison definition for the amended merge claim, command fields: the
merged value of a command-list key given the three documents' values is the
plain concatenation — with no deduplication — or the current document's
value when every contribution is empty. -/
def spec_merged_commands (a b c : Option (List PyObj)) : Option (List PyObj) :=
  let vs := optList a ++ optList b ++ optList c
  if vs = [] then c else some vs

/-- Comparison definition for the amended merge claim, object-list fields:
the concatenation is deduplicated iff its first element's class is
`Deduplicatable`; an empty concatenation keeps the current document's
value. -/
def spec_merged_dedup (Ep : EnumBy PyObj pyEq) (Es : EnumBy String (fun a b => a = b))
    (cwd : String) (a b c base : List PyObj) : List PyObj :=
  match a ++ b ++ c with
  | [] => base
  | v0 :: _ =>
    if pyIsDeduplicatable v0 then Deduplicatable_deduplicate Ep Es cwd (a ++ b ++ c)
    else a ++ b ++ c

/-- Whether every element of an optional command list is a plain string (as
every real configuration's command lists are). -/
def isStrList (o : Option (List PyObj)) : Bool :=
  (optList o).all (fun x => match x with
    | .str _ => true
    | _ => false)

theorem strEnum_mem_iff (Es : EnumBy String (fun a b => a = b))
    (l : List String) (u : String) : u ∈ Es.enum l ↔ u ∈ l := by
  constructor
  · exact Es.sub l u
  · intro h
    obtain ⟨y, hy, he⟩ := Es.cover l u h
    have : u = y := by simpa using he
    exact this ▸ hy

theorem strEnum_nodup (Es : EnumBy String (fun a b => a = b))
    (l : List String) : (Es.enum l).Nodup := by
  have := Es.nodup l
  refine this.imp ?_
  intro a b hab
  intro he
  subst he
  simp at hab

theorem assocUpdateLoc_map_fst (Es : EnumBy String (fun a b => a = b)) :
    ∀ (acc : List (String × SitemapUpdateTask)) (k : String) (nl : List String),
      (assocUpdateLoc Es acc k nl).map Prod.fst = acc.map Prod.fst := by
  intro acc k nl
  induction acc with
  | nil => simp [assocUpdateLoc]
  | cons e rest ih =>
    obtain ⟨k0, v⟩ := e
    by_cases h : k0 = k <;> simp [assocUpdateLoc, h, ih]

theorem assocUpdateLoc_path (Es : EnumBy String (fun a b => a = b)) :
    ∀ (acc : List (String × SitemapUpdateTask)) (k : String) (nl : List String),
      (∀ e ∈ acc, e.2.path = e.1) →
      (∀ e ∈ assocUpdateLoc Es acc k nl, e.2.path = e.1) := by
  intro acc k nl hacc
  induction acc with
  | nil => simp [assocUpdateLoc]
  | cons e rest ih =>
    obtain ⟨k0, v⟩ := e
    intro x hx
    by_cases h : k0 = k
    · simp only [assocUpdateLoc, if_pos h] at hx
      rcases List.mem_cons.mp hx with hx | hx
      · subst hx; exact hacc (k0, v) (List.mem_cons_self _ _)
      · exact hacc x (List.mem_cons_of_mem _ hx)
    · simp only [assocUpdateLoc, if_neg h] at hx
      rcases List.mem_cons.mp hx with hx | hx
      · subst hx; exact hacc (k0, v) (List.mem_cons_self _ _)
      · exact ih (fun e he => hacc e (List.mem_cons_of_mem _ he)) x hx

theorem assocHas_nil (k : String) : assocHas [] k = false := rfl

theorem assocHas_cons (k0 k : String) (v : SitemapUpdateTask)
    (rest : List (String × SitemapUpdateTask)) :
    assocHas ((k0, v) :: rest) k = (decide (k0 = k) || assocHas rest k) := by
  simp [assocHas]

theorem assocUpdateLoc_mem (Es : EnumBy String (fun a b => a = b)) :
    ∀ (acc : List (String × SitemapUpdateTask)) (k : String) (nl : List String)
      (p u : String),
      ((∃ e ∈ assocUpdateLoc Es acc k nl, e.1 = p ∧ u ∈ e.2.loc)
        ↔ ((∃ e ∈ acc, e.1 = p ∧ u ∈ e.2.loc)
            ∨ (p = k ∧ assocHas acc k = true ∧ u ∈ nl))) := by
  intro acc k nl p u
  induction acc with
  | nil => simp [assocUpdateLoc, assocHas]
  | cons e rest ih =>
    obtain ⟨k0, v⟩ := e
    by_cases h : k0 = k
    · subst h
      simp only [assocUpdateLoc, if_pos rfl]
      constructor
      · rintro ⟨e, he, hp, hu⟩
        rcases List.mem_cons.mp he with he | he
        · subst he
          simp only at hp hu
          rw [strEnum_mem_iff] at hu
          rcases List.mem_append.mp hu with hu | hu
          · exact Or.inl ⟨(k0, v), List.mem_cons_self _ _, hp, hu⟩
          · exact Or.inr ⟨hp.symm ▸ rfl, by simp [assocHas], hu⟩
        · exact Or.inl ⟨e, List.mem_cons_of_mem _ he, hp, hu⟩
      · rintro (⟨e, he, hp, hu⟩ | ⟨hp, _, hu⟩)
        · rcases List.mem_cons.mp he with he | he
          · subst he
            refine ⟨(k0, { v with loc := Es.enum (v.loc ++ nl) }), List.mem_cons_self _ _, hp, ?_⟩
            rw [strEnum_mem_iff]
            exact List.mem_append.mpr (Or.inl hu)
          · exact ⟨e, List.mem_cons_of_mem _ he, hp, hu⟩
        · refine ⟨(k0, { v with loc := Es.enum (v.loc ++ nl) }), List.mem_cons_self _ _, hp.symm, ?_⟩
          rw [strEnum_mem_iff]
          exact List.mem_append.mpr (Or.inr hu)
    · simp only [assocUpdateLoc, if_neg h]
      constructor
      · rintro ⟨e, he, hp, hu⟩
        rcases List.mem_cons.mp he with he | he
        · subst he; exact Or.inl ⟨(k0, v), List.mem_cons_self _ _, hp, hu⟩
        · rcases (ih.mp ⟨e, he, hp, hu⟩) with h' | h'
          · obtain ⟨e', he', hp', hu'⟩ := h'
            exact Or.inl ⟨e', List.mem_cons_of_mem _ he', hp', hu'⟩
          · obtain ⟨hp', hh, hu'⟩ := h'
            refine Or.inr ⟨hp', ?_, hu'⟩
            rw [assocHas_cons, hh, Bool.or_true]
      · rintro (⟨e, he, hp, hu⟩ | ⟨hp, hh, hu⟩)
        · rcases List.mem_cons.mp he with he | he
          · subst he; exact ⟨(k0, v), List.mem_cons_self _ _, hp, hu⟩
          · obtain ⟨e', he', hx⟩ := ih.mpr (Or.inl ⟨e, he, hp, hu⟩)
            exact ⟨e', List.mem_cons_of_mem _ he', hx⟩
        · have hh' : assocHas rest k = true := by
            rw [assocHas_cons] at hh
            rcases Bool.or_eq_true_iff.mp hh with hh | hh
            · exact absurd (of_decide_eq_true hh) h
            · exact hh
          obtain ⟨e', he', hx⟩ := ih.mpr (Or.inr ⟨hp, hh', hu⟩)
          exact ⟨e', List.mem_cons_of_mem _ he', hx⟩

theorem assocHas_congr (acc acc' : List (String × SitemapUpdateTask)) (p : String)
    (h : acc.map Prod.fst = acc'.map Prod.fst) :
    assocHas acc p = assocHas acc' p := by
  have h1 : ∀ l : List (String × SitemapUpdateTask),
      assocHas l p = (l.map Prod.fst).any (fun k => k = p) := by
    intro l
    induction l with
    | nil => rfl
    | cons e rest ih => simp [assocHas, List.any_cons] at ih ⊢; rw [ih]
  rw [h1, h1, h]

theorem assocHas_append_single (acc : List (String × SitemapUpdateTask))
    (k p : String) (v : SitemapUpdateTask) :
    assocHas (acc ++ [(k, v)]) p = (assocHas acc p || decide (k = p)) := by
  simp [assocHas]

theorem dedupSitemapsFold_locs (cwd : String) (Es : EnumBy String (fun a b => a = b)) :
    ∀ (items : List SitemapUpdateTask) (acc : List (String × SitemapUpdateTask))
      (p u : String),
      ((∃ e ∈ dedupSitemapsFold cwd Es items acc, e.1 = p ∧ u ∈ e.2.loc)
        ↔ ((∃ e ∈ acc, e.1 = p ∧ u ∈ e.2.loc)
            ∨ (∃ t ∈ items, t.path = p ∧ u ∈ t.loc))) := by
  intro items
  induction items with
  | nil => intro acc p u; simp [dedupSitemapsFold]
  | cons t ts ih =>
    intro acc p u
    by_cases h : assocHas acc t.path = true
    · rw [dedupSitemapsFold, if_pos h, ih, assocUpdateLoc_mem]
      simp only [List.mem_cons]
      constructor
      · rintro ((hacc | ⟨hp, _, hu⟩) | hts)
        · exact Or.inl hacc
        · exact Or.inr ⟨t, Or.inl rfl, hp.symm, hu⟩
        · obtain ⟨t', ht', hx⟩ := hts
          exact Or.inr ⟨t', Or.inr ht', hx⟩
      · rintro (hacc | ⟨t', ht' | ht', hp, hu⟩)
        · exact Or.inl (Or.inl hacc)
        · rw [ht'] at hp hu; exact Or.inl (Or.inr ⟨hp.symm, h, hu⟩)
        · exact Or.inr ⟨t', ht', hp, hu⟩
    · rw [dedupSitemapsFold, if_neg h, ih]
      simp only [List.mem_cons]
      constructor
      · rintro (hacc | hts)
        · rcases hacc with ⟨e, he, hp, hu⟩
          rcases List.mem_append.mp he with he | he
          · exact Or.inl ⟨e, he, hp, hu⟩
          · have : e = (t.path, mkSitemapUpdateTask cwd t.path t.loc (some t.relative_path)) := by
              simpa using he
            subst this
            refine Or.inr ⟨t, Or.inl rfl, hp, ?_⟩
            simpa [mkSitemapUpdateTask] using hu
        · obtain ⟨t', ht', hx⟩ := hts
          exact Or.inr ⟨t', Or.inr ht', hx⟩
      · rintro (hacc | ⟨t', ht' | ht', hp, hu⟩)
        · rcases hacc with ⟨e, he, hx⟩
          exact Or.inl ⟨e, List.mem_append.mpr (Or.inl he), hx⟩
        · rw [ht'] at hp hu
          refine Or.inl ⟨(t.path, mkSitemapUpdateTask cwd t.path t.loc (some t.relative_path)),
            List.mem_append.mpr (Or.inr (by simp)), hp, ?_⟩
          simpa [mkSitemapUpdateTask] using hu
        · exact Or.inr ⟨t', ht', hp, hu⟩

theorem dedupSitemapsFold_keys (cwd : String) (Es : EnumBy String (fun a b => a = b)) :
    ∀ (items : List SitemapUpdateTask) (acc : List (String × SitemapUpdateTask)),
      (dedupSitemapsFold cwd Es items acc).map Prod.fst
        = acc.map Prod.fst
          ++ dedupBy (fun a b => a = b)
              ((items.map (fun t => t.path)).filter (fun q => !(assocHas acc q))) := by
  intro items
  induction items with
  | nil => intro acc; simp [dedupSitemapsFold, dedupBy]
  | cons t ts ih =>
    intro acc
    by_cases h : assocHas acc t.path = true
    · rw [dedupSitemapsFold, if_pos h, ih]
      have hfst := assocUpdateLoc_map_fst Es acc t.path t.loc
      rw [hfst]
      have hfil : ∀ q, assocHas (assocUpdateLoc Es acc t.path t.loc) q = assocHas acc q :=
        fun q => assocHas_congr _ _ q hfst
      simp only [List.map_cons, List.filter_cons, h, Bool.not_true]
      simp only [hfil]
      rfl
    · rw [dedupSitemapsFold, if_neg h, ih]
      have hb : assocHas acc t.path = false := by
        cases hx : assocHas acc t.path
        · rfl
        · exact absurd hx h
      simp only [List.map_append, List.map_cons, List.map_nil, List.filter_cons, hb,
        Bool.not_false, if_pos]
      rw [List.append_assoc]
      congr 1
      have hstep : dedupBy (fun a b : String => a = b)
          (t.path :: (ts.map (fun t => t.path)).filter (fun q => !(assocHas acc q)))
          = t.path :: dedupBy (fun a b : String => a = b)
              (((ts.map (fun t => t.path)).filter (fun q => !(assocHas acc q))).filter
                (fun b => !(decide (t.path = b)))) := by
        rw [dedupBy]
      rw [hstep]
      simp only [List.singleton_append]
      congr 1
      congr 1
      rw [List.filter_filter]
      apply List.filter_congr
      intro q _
      rw [assocHas_append_single]
      simp [Bool.not_or, Bool.and_comm]

theorem dedupSitemapsFold_pathinv (cwd : String) (Es : EnumBy String (fun a b => a = b)) :
    ∀ (items : List SitemapUpdateTask) (acc : List (String × SitemapUpdateTask)),
      (∀ t ∈ items, pathlib_resolve cwd t.path = t.path) →
      (∀ e ∈ acc, e.2.path = e.1) →
      (∀ e ∈ dedupSitemapsFold cwd Es items acc, e.2.path = e.1) := by
  intro items
  induction items with
  | nil => intro acc _ hacc; simpa [dedupSitemapsFold] using hacc
  | cons t ts ih =>
    intro acc hcanon hacc
    by_cases h : assocHas acc t.path = true
    · rw [dedupSitemapsFold, if_pos h]
      exact ih _ (fun x hx => hcanon x (List.mem_cons_of_mem _ hx))
        (assocUpdateLoc_path Es acc t.path t.loc hacc)
    · rw [dedupSitemapsFold, if_neg h]
      refine ih _ (fun x hx => hcanon x (List.mem_cons_of_mem _ hx)) ?_
      intro e he
      rcases List.mem_append.mp he with he | he
      · exact hacc e he
      · have : e = (t.path, mkSitemapUpdateTask cwd t.path t.loc (some t.relative_path)) := by
          simpa using he
        subst this
        simpa [mkSitemapUpdateTask] using hcanon t (List.mem_cons_self _ _)

theorem dedupSitemapsFold_disjoint (cwd : String) (Es : EnumBy String (fun a b => a = b)) :
    ∀ (items : List SitemapUpdateTask) (acc : List (String × SitemapUpdateTask)),
      items.Pairwise (fun a b => a.path ≠ b.path) →
      (∀ t ∈ items, assocHas acc t.path = false) →
      dedupSitemapsFold cwd Es items acc
        = acc ++ items.map
            (fun t => (t.path, mkSitemapUpdateTask cwd t.path t.loc (some t.relative_path))) := by
  intro items
  induction items with
  | nil => intro acc _ _; simp [dedupSitemapsFold]
  | cons t ts ih =>
    intro acc hpw hacc
    have hh : ¬ assocHas acc t.path = true := by
      rw [hacc t (List.mem_cons_self _ _)]; simp
    rw [dedupSitemapsFold, if_neg hh]
    rw [ih _ (List.pairwise_cons.mp hpw).2]
    · simp
    · intro t' ht'
      rw [assocHas_append_single]
      have h1 : assocHas acc t'.path = false := hacc t' (List.mem_cons_of_mem _ ht')
      have h2 : t.path ≠ t'.path := (List.pairwise_cons.mp hpw).1 t' ht'
      simp [h1, h2]

/-- C6: two `SitemapUpdateTask`s with the same canonical path and location
sets `\x7bu1,u2\x7d` and `\x7bu2,u3\x7d` deduplicate to exactly one task whose
location set is exactly the union, with no duplicate locations — for every
admissible enumeration of the merged location set. -/
theorem c6_theorem (Es : EnumBy String (fun a b => a = b))
    (cwd p rp1 rp2 u1 u2 u3 : String) :
    (deduplicate_sitemaps cwd Es
        [⟨p, rp1, [u1, u2]⟩, ⟨p, rp2, [u2, u3]⟩]).length = 1 ∧
    (∀ u, (∃ t ∈ deduplicate_sitemaps cwd Es
              [⟨p, rp1, [u1, u2]⟩, ⟨p, rp2, [u2, u3]⟩], u ∈ t.loc)
        ↔ (u = u1 ∨ u = u2 ∨ u = u3)) ∧
    (∀ t ∈ deduplicate_sitemaps cwd Es
        [⟨p, rp1, [u1, u2]⟩, ⟨p, rp2, [u2, u3]⟩], t.loc.Nodup) := by
  have hM : (mkSitemapUpdateTask cwd p [u1, u2] (some rp1)).loc = [u1, u2] := by
    simp [mkSitemapUpdateTask]
  have h1 : dedupSitemapsFold cwd Es [⟨p, rp1, [u1, u2]⟩, ⟨p, rp2, [u2, u3]⟩] []
      = [(p, { mkSitemapUpdateTask cwd p [u1, u2] (some rp1) with
                loc := Es.enum ([u1, u2] ++ [u2, u3]) })] := by
    rw [dedupSitemapsFold]
    rw [if_neg (by simp [assocHas])]
    rw [dedupSitemapsFold]
    rw [if_pos (by simp [assocHas])]
    rw [dedupSitemapsFold]
    simp [assocUpdateLoc, hM]
  refine ⟨?_, ?_, ?_⟩
  · rw [deduplicate_sitemaps, h1]; rfl
  · intro u
    rw [deduplicate_sitemaps, h1]
    simp only [List.map_cons, List.map_nil, List.mem_cons, List.not_mem_nil, or_false]
    constructor
    · rintro ⟨t, ht, hu⟩
      rw [ht] at hu
      have := (strEnum_mem_iff Es _ u).mp hu
      simp at this
      tauto
    · intro hu
      refine ⟨_, rfl, ?_⟩
      rw [strEnum_mem_iff]
      simp
      tauto
  · intro t ht
    rw [deduplicate_sitemaps, h1] at ht
    simp at ht
    rw [ht]
    exact strEnum_nodup Es _

/-- C6 witness: the theorem instantiated with a concrete enumeration and
concrete strings. -/
theorem c6_witness :
    (deduplicate_sitemaps "/w" strEnum0
        [⟨"/p", "r1", ["u1", "u2"]⟩, ⟨"/p", "r2", ["u2", "u3"]⟩]).length = 1 ∧
    (∀ u, (∃ t ∈ deduplicate_sitemaps "/w" strEnum0
              [⟨"/p", "r1", ["u1", "u2"]⟩, ⟨"/p", "r2", ["u2", "u3"]⟩], u ∈ t.loc)
        ↔ (u = "u1" ∨ u = "u2" ∨ u = "u3")) ∧
    (∀ t ∈ deduplicate_sitemaps "/w" strEnum0
        [⟨"/p", "r1", ["u1", "u2"]⟩, ⟨"/p", "r2", ["u2", "u3"]⟩], t.loc.Nodup) :=
  c6_theorem strEnum0 "/w" "/p" "r1" "r2" "u1" "u2" "u3"

/-- C7 (amended): when two tasks share a path, the surviving task's display
metadata comes from the first-seen task — it is the `relative_path` of a
task reconstructed from the first-seen task's path and display path — and
is independent of the last-seen task's metadata. -/
theorem c7_theorem (Es : EnumBy String (fun a b => a = b)) (cwd : String)
    (t1 t2 : SitemapUpdateTask) (h : t1.path = t2.path) :
    (deduplicate_sitemaps cwd Es [t1, t2]).map (fun t => t.relative_path)
      = [(mkSitemapUpdateTask cwd t1.path t1.loc (some t1.relative_path)).relative_path] := by
  rw [deduplicate_sitemaps]
  rw [dedupSitemapsFold]
  rw [if_neg (by simp [assocHas])]
  rw [dedupSitemapsFold]
  rw [if_pos (by simp [assocHas, h])]
  rw [dedupSitemapsFold]
  simp [assocUpdateLoc, ← h]

/-- C7 witness: the amended theorem at concrete tasks. -/
theorem c7_witness :
    (deduplicate_sitemaps "/w" strEnum0
        [⟨"/p/s.xml", "/p/s.xml", ["u"]⟩, ⟨"/p/s.xml", "/p/./s.xml", ["v"]⟩]).map
        (fun t => t.relative_path)
      = [(mkSitemapUpdateTask "/w" "/p/s.xml" ["u"] (some "/p/s.xml")).relative_path] :=
  c7_theorem strEnum0 "/w" ⟨"/p/s.xml", "/p/s.xml", ["u"]⟩ ⟨"/p/s.xml", "/p/./s.xml", ["v"]⟩ rfl

/-- C7 counterexample: two tasks for the same file, the first recorded under
display path `/p/s.xml`, the second under `/p/./s.xml`.  The survivor's
display metadata is `.` (derived from the first-seen task by re-running the
constructor), not the last-seen task's `/p/./s.xml` as the claim states. -/
theorem c7_counterexample :
    (deduplicate_sitemaps "/w" strEnum0
        [⟨"/p/s.xml", "/p/s.xml", ["u"]⟩, ⟨"/p/s.xml", "/p/./s.xml", ["v"]⟩]).map
        (fun t => t.relative_path) = ["."] ∧
    ("." : String) ≠ "/p/./s.xml" := by
  constructor
  · decide
  · decide

/-- C9: deduplication is idempotent up to content equality.  Generic case: on
a list whose first element is not a `SitemapUpdateTask` and that is already
duplicate-free under Python `==`, `Deduplicatable.deduplicate` returns a
permutation of its input (the set enumeration may reorder), for every
admissible enumeration.  Sitemap case: on tasks with pairwise-distinct,
already-canonical paths, `deduplicate_sitemaps` preserves every task's path
and location list, in order. -/
theorem c9_theorem :
    (∀ (Ep : EnumBy PyObj pyEq) (Es : EnumBy String (fun a b => a = b)) (cwd : String)
        (x : PyObj) (xs : List PyObj),
        pyIsTask x = false →
        (x :: xs).Pairwise (fun a b => pyEq a b = false) →
        (Deduplicatable_deduplicate Ep Es cwd (x :: xs)).Perm (x :: xs)) ∧
    (∀ (Es : EnumBy String (fun a b => a = b)) (cwd : String)
        (items : List SitemapUpdateTask),
        items.Pairwise (fun a b => a.path ≠ b.path) →
        (∀ t ∈ items, pathlib_resolve cwd t.path = t.path) →
        (deduplicate_sitemaps cwd Es items).map (fun t => (t.path, t.loc))
          = items.map (fun t => (t.path, t.loc))) := by
  constructor
  · intro Ep Es cwd x xs hx hpw
    have hd : Deduplicatable_deduplicate Ep Es cwd (x :: xs) = Ep.enum (x :: xs) := by
      cases x
      · rfl
      · rfl
      · rfl
      · rfl
      · simp [pyIsTask] at hx
    rw [hd]
    have hne : ∀ {a b : PyObj}, pyEq a b = false → a ≠ b := by
      intro a b hab he
      subst he
      rw [pyEq_refl] at hab
      exact Bool.noConfusion hab
    have hlnd : (x :: xs).Nodup := hpw.imp hne
    have hend : (Ep.enum (x :: xs)).Nodup := (Ep.nodup (x :: xs)).imp hne
    have hsub : Ep.enum (x :: xs) ⊆ x :: xs := fun a ha => Ep.sub _ a ha
    have hsub2 : (x :: xs) ⊆ Ep.enum (x :: xs) := by
      intro a ha
      obtain ⟨y, hy, hr⟩ := Ep.cover (x :: xs) a ha
      by_cases he : a = y
      · exact he ▸ hy
      · have hsymmR : Symmetric (fun a b : PyObj => pyEq a b = false) := by
          intro a b hab
          rw [pyEq_symm]
          exact hab
        have := hpw.forall hsymmR ha (hsub hy) he
        rw [this] at hr
        exact Bool.noConfusion hr
    exact (List.subperm_of_subset hend hsub).antisymm (List.subperm_of_subset hlnd hsub2)
  · intro Es cwd items hpw hcanon
    rw [deduplicate_sitemaps, dedupSitemapsFold_disjoint cwd Es items [] hpw (fun t _ => rfl)]
    rw [List.nil_append, List.map_map, List.map_map]
    refine List.map_congr_left ?_
    intro t ht
    simp [mkSitemapUpdateTask, hcanon t ht]

/-- C9 witness: both parts at concrete inputs. -/
theorem c9_witness :
    (Deduplicatable_deduplicate pyEnum0 strEnum0 "/w"
        [PyObj.str "a", PyObj.str "b"]).Perm [PyObj.str "a", PyObj.str "b"] ∧
    (deduplicate_sitemaps "/w" strEnum0
        [(⟨"/p", "/p", ["u"]⟩ : SitemapUpdateTask)]).map (fun t => (t.path, t.loc))
      = [(⟨"/p", "/p", ["u"]⟩ : SitemapUpdateTask)].map (fun t => (t.path, t.loc)) :=
  ⟨c9_theorem.1 pyEnum0 strEnum0 "/w" (PyObj.str "a") [PyObj.str "b"] (by decide) (by decide),
   c9_theorem.2 strEnum0 "/w" [⟨"/p", "/p", ["u"]⟩] (by decide) (by decide)⟩

theorem fsLookup_mem_keys (fs : Fs) (q : String) (n : FsNode)
    (h : fsLookup fs q = some n) : q ∈ fs.map Prod.fst := by
  rw [fsLookup] at h
  rcases ho : fs.find? (fun e => e.1 = q) with _ | e
  · rw [ho] at h; exact Option.noConfusion h
  · have he := List.find?_some ho
    have hm := List.mem_of_find?_eq_some ho
    have : e.1 = q := by simpa using he
    exact this ▸ List.mem_map_of_mem Prod.fst hm

theorem nodup_subset_length {α : Type} [DecidableEq α] (l ks : List α)
    (hnd : l.Nodup) (hsub : ∀ x ∈ l, x ∈ ks) : l.length ≤ ks.length :=
  (List.subperm_of_subset hnd hsub).length_le

theorem chain_keys (fs : Fs) (final : FsNode) :
    ∀ qs, isLinkChainB fs final qs = true → ∀ q ∈ qs, q ∈ fs.map Prod.fst := by
  intro qs
  induction qs with
  | nil => intro h; simp [isLinkChainB] at h
  | cons q rest ih =>
    intro h x hx
    cases rest with
    | nil =>
      have hfl : fsLookup fs q = some final := by
        rw [isLinkChainB] at h
        exact of_decide_eq_true h
      rcases List.mem_cons.mp hx with hx | hx
      · exact hx ▸ fsLookup_mem_keys fs q final hfl
      · simp at hx
    | cons q' rest' =>
      rw [isLinkChainB] at h
      obtain ⟨h1, h2⟩ := Bool.and_eq_true_iff.mp h
      rcases List.mem_cons.mp hx with hx | hx
      · subst hx
        rcases hfl : fsLookup fs x with _ | node
        · rw [hfl] at h1; exact Bool.noConfusion h1
        · exact fsLookup_mem_keys fs x node hfl
      · exact ih h2 x hx

theorem chain_followExists (fs : Fs) (final : FsNode)
    (hfin : final = .file ∨ final = .dir) :
    ∀ (rest : List String) (q : String) (fuel : Nat),
      isLinkChainB fs final (q :: rest) = true →
      (q :: rest).length ≤ fuel →
      followExists fs fuel q = true := by
  intro rest
  induction rest with
  | nil =>
    intro q fuel hchain hfuel
    have hfl : fsLookup fs q = some final := by
      rw [isLinkChainB] at hchain
      exact of_decide_eq_true hchain
    cases fuel with
    | zero => simp at hfuel
    | succ f =>
      rw [followExists, hfl]
      rcases hfin with h | h <;> rw [h]
  | cons q' rest' ih =>
    intro q fuel hchain hfuel
    rw [isLinkChainB] at hchain
    obtain ⟨h1, h2⟩ := Bool.and_eq_true_iff.mp hchain
    rcases hfl : fsLookup fs q with _ | node
    · rw [hfl] at h1; exact Bool.noConfusion h1
    · cases node with
      | file => rw [hfl] at h1; exact Bool.noConfusion h1
      | dir => rw [hfl] at h1; exact Bool.noConfusion h1
      | link tg rb =>
        cases rb with
        | false => rw [hfl] at h1; exact Bool.noConfusion h1
        | true =>
          rw [hfl] at h1
          obtain ⟨_, hdest⟩ := Bool.and_eq_true_iff.mp h1
          have hdest' : link_dest q tg = q' := of_decide_eq_true hdest
          cases fuel with
          | zero => simp at hfuel
          | succ f =>
            have hstep : followExists fs (f + 1) q = followExists fs f (link_dest q tg) := by
              rw [followExists, hfl]
            rw [hstep, hdest']
            exact ih q' f h2 (by simpa using hfuel)

theorem chain_exists (fs : Fs) (final : FsNode)
    (hfin : final = .file ∨ final = .dir) (q : String) (rest : List String)
    (hchain : isLinkChainB fs final (q :: rest) = true)
    (hnd : (q :: rest).Nodup) :
    os_path_exists fs q = true := by
  rw [os_path_exists]
  refine chain_followExists fs final hfin rest q (fs.length + 1) hchain ?_
  have h1 : (q :: rest).length ≤ (fs.map Prod.fst).length :=
    nodup_subset_length _ _ hnd (chain_keys fs final _ hchain)
  rw [List.length_map] at h1
  exact Nat.le_succ_of_le h1

theorem os_path_join_empty (t : String) : os_path_join "" t = t := by
  by_cases h : strStartsWith t "/" <;> simp [os_path_join, h]

theorem resolve_chain_aux (fs : Fs) (cwd : String) (final : FsNode) (remote : String)
    (hfin : final = .file ∨ final = .dir) :
    ∀ (tail : List String) (q root locl : String) (visited : List String) (fuel : Nat),
      isLinkChainB fs final (q :: tail) = true →
      os_path_join root locl = q →
      ((q :: tail).map (os_path_abspath cwd)).Nodup →
      (∀ x ∈ q :: tail, os_path_abspath cwd x ∉ visited) →
      (q :: tail).length ≤ fuel →
      _resolve_symlinks fs cwd fuel root locl remote visited
        = resolveTerminal final
            (match tail with
             | [] => root
             | _ :: _ => "")
            (match tail with
             | [] => locl
             | t :: ts => (t :: ts).getLastD t)
            remote := by
  intro tail
  induction tail with
  | nil =>
    intro q root locl visited fuel hchain hjoin hnd hvis hfuel
    have hfl : fsLookup fs q = some final := by
      rw [isLinkChainB] at hchain
      exact of_decide_eq_true hchain
    have hex : os_path_exists fs q = true :=
      chain_exists fs final hfin q [] hchain (by simp)
    cases fuel with
    | zero => simp at hfuel
    | succ f =>
      rw [_resolve_symlinks, hjoin]
      rw [if_neg (hvis q (List.mem_cons_self _ _))]
      rw [if_neg (by rw [hex]; simp)]
      rw [hfl]
      rcases hfin with h | h <;> rw [h] <;> rfl
  | cons t ts ih =>
    intro q root locl visited fuel hchain hjoin hnd hvis hfuel
    rw [isLinkChainB] at hchain
    obtain ⟨h1, h2⟩ := Bool.and_eq_true_iff.mp hchain
    rcases hfl : fsLookup fs q with _ | node <;> rw [hfl] at h1
    · exact Bool.noConfusion h1
    cases node with
    | file => exact Bool.noConfusion h1
    | dir => exact Bool.noConfusion h1
    | link tg rb =>
      cases rb with
      | false => exact Bool.noConfusion h1
      | true =>
        obtain ⟨hmark, hdest⟩ := Bool.and_eq_true_iff.mp h1
        have hmark' : strStartsWith tg winMarker = false := by
          cases hm : strStartsWith tg winMarker
          · rfl
          · rw [hm] at hmark; exact Bool.noConfusion hmark
        have hdest' : link_dest q tg = t := of_decide_eq_true hdest
        have hex : os_path_exists fs q = true := by
          refine chain_exists fs final hfin q (t :: ts)
            (by rw [isLinkChainB, hfl]; exact Bool.and_eq_true_iff.mpr ⟨h1, h2⟩) ?_
          exact hnd.of_map (os_path_abspath cwd)
        cases fuel with
        | zero => simp at hfuel
        | succ f =>
          rw [_resolve_symlinks, hjoin]
          rw [if_neg (hvis q (List.mem_cons_self _ _))]
          rw [if_neg (by rw [hex]; simp)]
          rw [hfl]
          simp only [if_pos rfl, hmark', Bool.false_eq_true, if_false]
          rw [show (if os_path_isabs tg = true then tg
                    else os_path_join (os_path_dirname q) tg) = t from hdest']
          have hrec := ih t "" t (os_path_abspath cwd q :: visited) f h2
            (os_path_join_empty t)
            (by
              have := hnd
              rw [List.map_cons] at this
              exact this.of_cons)
            (by
              intro x hx
              rw [List.mem_cons, not_or]
              constructor
              · intro he
                have := hnd
                rw [List.map_cons, List.nodup_cons] at this
                exact this.1 (he ▸ List.mem_map_of_mem (os_path_abspath cwd) hx)
              · exact hvis x (List.mem_cons_of_mem _ hx))
            (by simpa using Nat.le_of_succ_le_succ hfuel)
          rw [hrec]
          cases ts with
          | nil => rfl
          | cons s ss =>
            dsimp only
            rw [List.getLastD_cons, List.getLastD_cons, List.getLastD_cons]
            simp

/-- C1 (amended): a `FileMapping` whose joined path heads a chain of `N >= 1`
readable symlinks (pairwise-distinct absolute forms) ending at a regular
file resolves to exactly one triple whose recorded root is the empty string
and whose recorded local path is the final link target's computed path — not
the originally requested root and local path — while the requested
remote path is passed through unchanged. -/
theorem c1_theorem (fs : Fs) (cwd root locl remote q0 q1 : String)
    (rest : List String) (fuel : Nat)
    (hchain : isLinkChainB fs .file (q0 :: q1 :: rest) = true)
    (hjoin : os_path_join root locl = q0)
    (hnodup : ((q0 :: q1 :: rest).map (os_path_abspath cwd)).Nodup)
    (hfuel : (q0 :: q1 :: rest).length ≤ fuel) :
    _resolve_symlinks fs cwd fuel root locl remote []
      = .ok (some ("", (q1 :: rest).getLastD q1, remote)) := by
  have h := resolve_chain_aux fs cwd .file remote (Or.inl rfl) (q1 :: rest) q0 root locl
    [] fuel hchain hjoin hnodup (by simp) hfuel
  simpa [resolveTerminal] using h

/-- C1 witness: a single relative symlink `/r/a -> /r/b` to a regular file;
the resolved triple records the empty root and the target path `/r/b`, not
the requested `("/r", "a")`. -/
theorem c1_witness :
    _resolve_symlinks [("/r/a", FsNode.link "/r/b" true), ("/r/b", FsNode.file)]
        "/w" 3 "/r" "a" "rp" []
      = .ok (some ("", "/r/b", "rp")) :=
  c1_theorem [("/r/a", FsNode.link "/r/b" true), ("/r/b", FsNode.file)]
    "/w" "/r" "a" "rp" "/r/a" "/r/b" [] 3 (by decide) (by decide) (by decide) (by decide)

/-- C1 counterexample: for the mapping `("/r", "a", "rp")` through the link
`/r/a -> /r/b`, resolution yields `("", "/r/b", "rp")` — the original root
and local path are not recorded, contradicting the claim. -/
theorem c1_counterexample :
    _resolve_symlinks [("/r/a", FsNode.link "/r/b" true), ("/r/b", FsNode.file)]
        "/w" 3 "/r" "a" "rp" []
      = .ok (some ("", "/r/b", "rp")) ∧
    (("", "/r/b", "rp") : String × String × String) ≠ ("/r", "a", "rp") := by
  exact ⟨by decide, by decide⟩

/-- C4 (amended): a `FileMapping` whose joined path reaches a directory
after zero or more symlinks never yields and never skips: resolution raises.
The exception is the bare `raise` statement (a `RuntimeError` at run time),
not a distinct named `SymlinkToDirectoryError`. -/
theorem c4_theorem (fs : Fs) (cwd root locl remote q0 : String)
    (rest : List String) (fuel : Nat)
    (hchain : isLinkChainB fs .dir (q0 :: rest) = true)
    (hjoin : os_path_join root locl = q0)
    (hnodup : ((q0 :: rest).map (os_path_abspath cwd)).Nodup)
    (hfuel : (q0 :: rest).length ≤ fuel) :
    _resolve_symlinks fs cwd fuel root locl remote [] = .error .bareRaise := by
  have h := resolve_chain_aux fs cwd .dir remote (Or.inr rfl) rest q0 root locl
    [] fuel hchain hjoin hnodup (by simp) hfuel
  rw [h]
  cases rest <;> rfl

/-- C4 witness: a symlink `/r/s -> /r/d` terminating at a directory; the
mapping `("/r", "s", "rp")` raises. -/
theorem c4_witness :
    _resolve_symlinks [("/r/s", FsNode.link "/r/d" true), ("/r/d", FsNode.dir)]
        "/w" 3 "/r" "s" "rp" []
      = .error .bareRaise :=
  c4_theorem [("/r/s", FsNode.link "/r/d" true), ("/r/d", FsNode.dir)]
    "/w" "/r" "s" "rp" "/r/s" ["/r/d"] 3 (by decide) (by decide) (by decide) (by decide)

/-- C4 counterexample: a mapping declared directly on a directory fails with
the bare `raise` (modelled `.bareRaise`, a `RuntimeError` carrying no
information), not with a distinct named `SymlinkToDirectoryError` — no such
error kind exists in the code. -/
theorem c4_counterexample :
    _resolve_symlinks [("/r/d", FsNode.dir)] "/w" 3 "/r" "d" "rp" []
      = .error .bareRaise := by
  decide

/-- C10: iterating a `FileMapping` yields exactly the one item
`_resolve_symlinks` returns; that item is the sentinel `None` — not an empty
sequence and not an exception — when the joined local path does not exist,
when a symlink cycle is hit (both the plain two-link loop and the loop only
visible through `abspath` canonicalisation), and when the link cannot be
read; and archive construction skips a `None` item, adding no member for
it. -/
theorem c10_theorem :
    (∀ (fs : Fs) (cwd : String) (fuel : Nat) (fm : FileMapping)
        (r : Option (String × String × String)),
        _resolve_symlinks fs cwd fuel fm.project_root fm.local_path fm.remote_path [] = .ok r →
        FileMapping_iter fs cwd fuel fm = .ok [r]) ∧
    (∀ (fs : Fs) (cwd : String) (fuel : Nat) (fm : FileMapping),
        1 ≤ fuel →
        os_path_exists fs (os_path_join fm.project_root fm.local_path) = false →
        FileMapping_iter fs cwd fuel fm = .ok [none]) ∧
    (FileMapping_iter [("/a", FsNode.link "/b" true), ("/b", FsNode.link "/a" true)]
        "/w" 5 ⟨"", "/a", "r"⟩ = .ok [none]) ∧
    (FileMapping_iter [("/a", FsNode.link "/./a" true), ("/./a", FsNode.file)]
        "/w" 5 ⟨"", "/a", "r"⟩ = .ok [none]) ∧
    (∀ (fs : Fs) (cwd : String) (fuel : Nat) (fm : FileMapping) (t : String),
        1 ≤ fuel →
        fsLookup fs (os_path_join fm.project_root fm.local_path) = some (.link t false) →
        os_path_exists fs (os_path_join fm.project_root fm.local_path) = true →
        FileMapping_iter fs cwd fuel fm = .ok [none]) ∧
    (∀ (fs : Fs) (cwd : String) (fuel : Nat) (m : FileMapping),
        FileMapping_iter fs cwd fuel m = .ok [none] →
        create_tar_archive fs cwd fuel [m] = .ok []) := by
  refine ⟨?_, ?_, ?_, ?_, ?_, ?_⟩
  · intro fs cwd fuel fm r h
    rw [FileMapping_iter, h]
    rfl
  · intro fs cwd fuel fm hfuel hex
    cases fuel with
    | zero => simp at hfuel
    | succ f =>
      rw [FileMapping_iter, _resolve_symlinks]
      rw [if_neg (List.not_mem_nil _)]
      rw [if_pos (by rw [hex]; simp)]
      rfl
  · decide
  · decide
  · intro fs cwd fuel fm t hfuel hlk hex
    cases fuel with
    | zero => simp at hfuel
    | succ f =>
      rw [FileMapping_iter, _resolve_symlinks]
      rw [if_neg (List.not_mem_nil _)]
      rw [if_neg (by rw [hex]; simp)]
      rw [hlk]
      rfl
  · intro fs cwd fuel m h
    rw [create_tar_archive, h]
    rfl

/-- C10 witness: the missing-path case at a concrete input, through the
theorem. -/
theorem c10_witness :
    FileMapping_iter [] "/w" 1 ⟨"", "/a", "r"⟩ = .ok [none] :=
  c10_theorem.2.1 [] "/w" 1 ⟨"", "/a", "r"⟩ (by decide) (by decide)

theorem cfgLookup_mem (cfgFs : List (String × RawConfig)) (p : String) (raw : RawConfig)
    (h : cfgLookup cfgFs p = some raw) : (p, raw) ∈ cfgFs := by
  rw [cfgLookup] at h
  rcases ho : cfgFs.find? (fun e => e.1 = p) with _ | e
  · rw [ho] at h; exact Option.noConfusion h
  · rw [ho] at h
    have he := List.find?_some ho
    have hm := List.mem_of_find?_eq_some ho
    have h1 : e.1 = p := by simpa using he
    have h2 : e.2 = raw := by simpa using h
    have h3 : e = (p, raw) := by
      obtain ⟨a, b⟩ := e
      simp only at h1 h2
      rw [h1, h2]
    exact h3 ▸ hm

theorem process_sitemaps_spec (cwd : String) :
    ∀ (es : List SitemapEntry), (∀ e ∈ es, entryBad e = false) →
      process_sitemaps cwd es
        = .ok (es.filterMap (entryTask cwd), (es.map entryDFiles).flatten) := by
  intro es
  induction es with
  | nil => intro _; rfl
  | cons e es ih =>
    intro h
    have hbad := h e (List.mem_cons_self _ _)
    have hrest := ih (fun x hx => h x (List.mem_cons_of_mem _ hx))
    rcases hp : e.path with _ | p
    · simp only [process_sitemaps, hp]
      rw [hrest]
      simp [entryTask, entryDFiles, hp]
    · rcases hl : e.loc with _ | lv
      · simp only [process_sitemaps, hp, hl]
        rw [hrest]
        simp [entryTask, entryDFiles, hp, hl]
      · cases lv with
        | str s =>
          rw [entryBad, hp, hl] at hbad
          simp at hbad
        | list l =>
          simp only [process_sitemaps, hp, hl]
          rw [hrest]
          simp [entryTask, entryDFiles, hp, hl]
          rcases e.target with _ | tg <;> rfl

theorem process_sitemaps_err (cwd : String) (e : SitemapEntry) (s : String)
    (hpath : e.path.isSome = true) (hloc : e.loc = some (.str s)) :
    ∀ (pre post : List SitemapEntry), (∀ x ∈ pre, entryBad x = false) →
      process_sitemaps cwd (pre ++ e :: post) = .error .locNotList := by
  intro pre
  induction pre with
  | nil =>
    intro post _
    rcases hp : e.path with _ | p
    · rw [hp] at hpath; simp at hpath
    · simp only [List.nil_append, process_sitemaps, hp, hloc]
  | cons x pre ih =>
    intro post h
    have hxbad := h x (List.mem_cons_self _ _)
    have hrest := ih post (fun y hy => h y (List.mem_cons_of_mem _ hy))
    rcases hp : x.path with _ | p
    · simpa only [List.cons_append, process_sitemaps, hp] using hrest
    · rcases hl : x.loc with _ | lv
      · simpa only [List.cons_append, process_sitemaps, hp, hl] using hrest
      · cases lv with
        | str s' =>
          rw [entryBad, hp, hl] at hxbad
          simp at hxbad
        | list l =>
          simp only [List.cons_append, process_sitemaps, hp, hl, List.append_eq]
          rw [hrest]
          rfl

theorem loadIncludes_restore
    (loader : String → LoadState → (Except LoadErr Config) × LoadState)
    (pr : String)
    (hld : ∀ (p : String) (s : LoadState) (r : Config) (s' : LoadState),
      loader p s = (.ok r, s') → s'.visited = s.visited) :
    ∀ (ips : List String) (st : LoadState) (cfgs : List Config) (st' : LoadState),
      loadIncludes loader pr ips st = (.ok cfgs, st') → st'.visited = st.visited := by
  intro ips
  induction ips with
  | nil =>
    intro st cfgs st' h
    rw [loadIncludes] at h
    simp only [Prod.mk.injEq] at h
    rw [← h.2]
  | cons ip ips ih =>
    intro st cfgs st' h
    rw [loadIncludes] at h
    split at h
    next e st1 heq => simp at h
    next cfg st1 heq =>
      split at h
      next e2 st2 heq2 => simp at h
      next cfgs2 st2 heq2 =>
        simp only [Prod.mk.injEq] at h
        rw [← h.2, ih st1 cfgs2 st2 heq2]
        exact hld _ st cfg st1 heq

theorem load_config_visited_restore (Ep : EnumBy PyObj pyEq)
    (Es : EnumBy String (fun a b => a = b))
    (cfgFs : List (String × RawConfig)) (cwd : String) :
    ∀ (fuel : Nat) (p : String) (st : LoadState) (cfg : Config) (st' : LoadState),
      load_config Ep Es cfgFs cwd fuel p st = (.ok cfg, st') → st'.visited = st.visited := by
  intro fuel
  induction fuel with
  | zero =>
    intro p st cfg st' h
    rw [load_config] at h
    simp at h
  | succ f ih =>
    intro p st cfg st' h
    rw [load_config] at h
    by_cases hv : os_path_abspath cwd p ∈ st.visited
    · rw [if_pos hv] at h; simp at h
    · rw [if_neg hv] at h
      rcases hlk : cfgLookup cfgFs p with _ | raw
      · simp only [hlk] at h; simp at h
      · simp only [hlk] at h
        rcases hcf : create_file_mappings raw.resources_files raw.resources_dirs
            (raw.project_root.getD "") st.oid with ⟨fmaps, oid1⟩
        simp only [hcf] at h
        rcases hps : process_sitemaps cwd (raw.sitemaps.getD []) with e | ⟨tasks, dfiles⟩
        · simp only [hps] at h; simp at h
        · simp only [hps] at h
          rcases hinc : raw.«include» with _ | ips
          · simp only [hinc] at h
            simp only [Prod.mk.injEq] at h
            rw [← h.2]
            simp [List.erase_cons_head]
          · simp only [hinc] at h
            rcases hli : loadIncludes (fun p s => load_config Ep Es cfgFs cwd f p s)
                (raw.project_root.getD "") ips
                ⟨os_path_abspath cwd p :: st.visited, oid1⟩ with ⟨res3, st3⟩
            simp only [hli] at h
            cases res3 with
            | error e => simp at h
            | ok included =>
              simp only [Prod.mk.injEq] at h
              rw [← h.2]
              have h3 : st3.visited = os_path_abspath cwd p :: st.visited := by
                have := loadIncludes_restore _ _ (fun p s r s' hh => ih p s r s' hh)
                  ips ⟨os_path_abspath cwd p :: st.visited, oid1⟩ included st3 hli
                simpa using this
              simp [h3, List.erase_cons_head]

theorem loadIncludes_ok
    (loader : String → LoadState → (Except LoadErr Config) × LoadState) (pr : String) :
    ∀ (ips : List String) (st : LoadState),
      (∀ i ∈ ips, ∀ s : LoadState, s.visited = st.visited →
        ∃ c o, loader (resolveIncludePath pr i) s = (.ok c, ⟨s.visited, o⟩)) →
      ∃ cfgs o, loadIncludes loader pr ips st = (.ok cfgs, ⟨st.visited, o⟩) := by
  intro ips
  induction ips with
  | nil =>
    intro st _
    exact ⟨[], st.oid, rfl⟩
  | cons ip ips ih =>
    intro st H
    obtain ⟨c, o, hc⟩ := H ip (List.mem_cons_self _ _) st rfl
    obtain ⟨cfgs, o2, hrest⟩ :=
      ih ⟨st.visited, o⟩ (fun i hi s hs => H i (List.mem_cons_of_mem _ hi) s hs)
    refine ⟨c :: cfgs, o2, ?_⟩
    rw [loadIncludes]
    simp only [hc]
    simp only [hrest]

/-- C3 (amended): a sitemap entry whose `loc` is a scalar string aborts the
whole load with the scalar-`loc` `ValueError` (no partially resolved
document), regardless of what follows; but an entry missing `path` or `loc`
is only skipped with a warning — the entry contributes nothing and loading
continues, contrary to the claim's fatal `InvalidSitemapEntryError`. -/
theorem c3_theorem :
    (∀ (Ep : EnumBy PyObj pyEq) (Es : EnumBy String (fun a b => a = b))
        (cfgFs : List (String × RawConfig)) (cwd : String) (fuel : Nat) (p : String)
        (st : LoadState) (raw : RawConfig) (pre post : List SitemapEntry)
        (e : SitemapEntry) (s : String),
        1 ≤ fuel →
        os_path_abspath cwd p ∉ st.visited →
        cfgLookup cfgFs p = some raw →
        raw.sitemaps = some (pre ++ e :: post) →
        e.path.isSome = true →
        e.loc = some (.str s) →
        (∀ x ∈ pre, entryBad x = false) →
        (load_config Ep Es cfgFs cwd fuel p st).1 = .error .locNotList) ∧
    (∀ (cwd : String) (es : List SitemapEntry),
        (∀ e ∈ es, entryBad e = false) →
        process_sitemaps cwd es
          = .ok (es.filterMap (entryTask cwd), (es.map entryDFiles).flatten)) := by
  constructor
  · intro Ep Es cfgFs cwd fuel p st raw pre post e s hfuel hv hlk hsm hpath hloc hpre
    cases fuel with
    | zero => simp at hfuel
    | succ f =>
      rw [load_config]
      rw [if_neg hv]
      simp only [hlk]
      rcases hcf : create_file_mappings raw.resources_files raw.resources_dirs
          (raw.project_root.getD "") st.oid with ⟨fmaps, oid1⟩
      simp only [hcf]
      rw [hsm]
      simp only [Option.getD_some]
      rw [process_sitemaps_err cwd e s hpath hloc pre post hpre]
  · intro cwd es h
    exact process_sitemaps_spec cwd es h

/-- C3 witness: a one-document tree whose only sitemap entry has a scalar
`loc`; loading aborts with the scalar-`loc` error. -/
theorem c3_witness :
    (load_config pyEnum0 strEnum0
        [("/S", { sitemaps := some [{ path := some "/m.xml", loc := some (.str "u") }] })]
        "/w" 3 "/S" ⟨[], 0⟩).1 = .error .locNotList :=
  c3_theorem.1 pyEnum0 strEnum0
    [("/S", { sitemaps := some [{ path := some "/m.xml", loc := some (.str "u") }] })]
    "/w" 3 "/S" ⟨[], 0⟩
    { sitemaps := some [{ path := some "/m.xml", loc := some (.str "u") }] }
    [] [] { path := some "/m.xml", loc := some (.str "u") } "u"
    (by decide) (by decide) (by decide) rfl rfl rfl (by simp)

/-- C3 counterexample: a sitemap entry missing the `loc` key.  The claim says
loading must fail with `InvalidSitemapEntryError`; the code merely warns,
drops the entry, and returns a resolved document (with an empty task
list). -/
theorem c3_counterexample :
    (load_config pyEnum0 strEnum0 [("/S", { sitemaps := some [{ path := some "/m.xml" }] })]
        "/w" 3 "/S" ⟨[], 0⟩).1.toOption.map (fun c => c.all_sitemaps)
      = some [] := by
  decide

/-- C8 (amended): the canonicalised path is released from the visited set on
every successful return — after any successful call the set is exactly
restored — and diamond-shaped includes (one file reached via two sibling
includes) resolve without a cycle error, with the set restored at top level;
but on a failing call the removal is skipped and the set retains the
partially resolved chain (resolution aborts entirely, so no caller observes
it in the source program). -/
theorem c8_theorem :
    (∀ (Ep : EnumBy PyObj pyEq) (Es : EnumBy String (fun a b => a = b))
        (cfgFs : List (String × RawConfig)) (cwd : String) (fuel : Nat) (p : String)
        (st : LoadState) (cfg : Config) (st' : LoadState),
        load_config Ep Es cfgFs cwd fuel p st = (.ok cfg, st') →
        st'.visited = st.visited) ∧
    ((load_config pyEnum0 strEnum0
        [("/C", { «include» := some ["/A", "/B"] }),
         ("/A", { «include» := some ["/D"] }),
         ("/B", { «include» := some ["/D"] }),
         ("/D", {})] "/w" 9 "/C" ⟨[], 0⟩).1.toOption.isSome = true) ∧
    ((load_config pyEnum0 strEnum0
        [("/C", { «include» := some ["/A", "/B"] }),
         ("/A", { «include» := some ["/D"] }),
         ("/B", { «include» := some ["/D"] }),
         ("/D", {})] "/w" 9 "/C" ⟨[], 0⟩).2 = ⟨[], 0⟩) := by
  refine ⟨?_, ?_, ?_⟩
  · intro Ep Es cfgFs cwd fuel p st cfg st' h
    exact load_config_visited_restore Ep Es cfgFs cwd fuel p st cfg st' h
  · decide
  · decide

/-- C8 witness: the restore part of the theorem at a concrete successful
load starting from a non-empty visited set. -/
theorem c8_witness :
    (LoadState.mk ["/q"] 3).visited = (LoadState.mk ["/q"] 3).visited :=
  c8_theorem.1 pyEnum0 strEnum0 [("/X", {})] "/w" 2 "/X" ⟨["/q"], 3⟩ {} ⟨["/q"], 3⟩
    (by decide)

/-- C8 counterexample: when an included document fails (scalar `loc`), the
error propagates and neither the child's nor the root's path is removed:
the visited set after the call is `["/E", "/R"]`, not the empty set it
started as — the claim's "on success and on failure alike" is false. -/
theorem c8_counterexample :
    load_config pyEnum0 strEnum0
        [("/R", { «include» := some ["/E"] }),
         ("/E", { sitemaps := some [{ path := some "/m.xml", loc := some (.str "u") }] })]
        "/w" 5 "/R" ⟨[], 0⟩
      = (.error .locNotList, ⟨["/E", "/R"], 0⟩) ∧
    (["/E", "/R"] : List String) ≠ [] := by
  exact ⟨by decide, by decide⟩

theorem resolveIncludePath_empty (x : String) : resolveIncludePath "" x = x := by
  rw [resolveIncludePath]
  by_cases h : os_path_isabs x = true
  · rw [if_pos h]
  · rw [if_neg h, os_path_join_empty]

theorem cfgLookup_cons (k q : String) (d : RawConfig)
    (rest : List (String × RawConfig)) :
    cfgLookup ((k, d) :: rest) q = if k = q then some d else cfgLookup rest q := by
  by_cases h : k = q <;> simp [cfgLookup, List.find?, h]

theorem ringFs_lookup (first : String) :
    ∀ (pre qs : List String) (q : String),
      (pre ++ q :: qs).Nodup →
      cfgLookup (ringFs first (pre ++ q :: qs)) q = some (incDoc (qs.headD first)) := by
  intro pre
  induction pre with
  | nil =>
    intro qs q _
    rw [List.nil_append, ringFs, cfgLookup_cons, if_pos rfl]
  | cons a pre ih =>
    intro qs q hnd
    rw [List.cons_append, ringFs, cfgLookup_cons]
    have ha : a ≠ q := by
      intro he
      have := (List.nodup_cons.mp hnd).1
      exact this (he ▸ List.mem_append.mpr (Or.inr (List.mem_cons_self _ _)))
    rw [if_neg ha]
    exact ih qs q (List.nodup_cons.mp hnd).2

theorem ring_cyclic_aux (Ep : EnumBy PyObj pyEq) (Es : EnumBy String (fun a b => a = b))
    (cwd first : String) (P : List String)
    (hfirst : P.headD "" = first)
    (hnd : (P.map (os_path_abspath cwd)).Nodup) :
    ∀ (suf pre : List String) (q : String) (st : LoadState) (fuel : Nat),
      P = pre ++ q :: suf →
      (∀ x, x ∈ st.visited ↔ x ∈ pre.map (os_path_abspath cwd)) →
      suf.length + 2 ≤ fuel →
      (load_config Ep Es (ringFs first P) cwd fuel q st).1 = .error .cyclicInclude := by
  intro suf
  induction suf with
  | nil =>
    intro pre q st fuel hP hvis hfuel
    have hPnd : ((pre ++ q :: []).map (os_path_abspath cwd)).Nodup := hP ▸ hnd
    have habs : os_path_abspath cwd q ∉ st.visited := by
      intro hmem
      have h1 := (hvis _).mp hmem
      rw [List.map_append] at hPnd
      have hdisj := (List.nodup_append.mp hPnd).2.2
      exact hdisj h1 (by simp)
    cases fuel with
    | zero => simp at hfuel
    | succ f =>
      rw [load_config, if_neg habs]
      rw [hP]
      simp only [ringFs_lookup first pre [] q (hP ▸ hnd.of_map _)]
      simp only [incDoc, create_file_mappings, process_sitemaps, Option.getD_none,
        Option.getD_some, List.headD_nil, List.length_nil, Nat.add_zero]
      rw [loadIncludes]
      simp only [resolveIncludePath_empty]
      cases f with
      | zero => omega
      | succ g =>
        have hmem : os_path_abspath cwd first
            ∈ os_path_abspath cwd q :: st.visited := by
          cases pre with
          | nil =>
            have hqf : q = first := by
              rw [hP] at hfirst
              simpa using hfirst
            rw [hqf]
            exact List.mem_cons_self _ _
          | cons a pre' =>
            have haf : a = first := by
              rw [hP] at hfirst
              simpa using hfirst
            refine List.mem_cons_of_mem _ ?_
            refine (hvis _).mpr ?_
            rw [← haf]
            exact List.mem_map_of_mem _ (List.mem_cons_self _ _)
        have hsub : load_config Ep Es (ringFs first (pre ++ q :: [])) cwd (g + 1) first
            ⟨os_path_abspath cwd q :: st.visited, st.oid⟩
            = (.error .cyclicInclude, ⟨os_path_abspath cwd q :: st.visited, st.oid⟩) := by
          rw [load_config]
          rw [if_pos hmem]
        simp only [hsub]
  | cons r suf' ih =>
    intro pre q st fuel hP hvis hfuel
    have hPnd : ((pre ++ q :: r :: suf').map (os_path_abspath cwd)).Nodup := hP ▸ hnd
    have habs : os_path_abspath cwd q ∉ st.visited := by
      intro hmem
      have h1 := (hvis _).mp hmem
      rw [List.map_append] at hPnd
      have hdisj := (List.nodup_append.mp hPnd).2.2
      exact hdisj h1 (by simp)
    cases fuel with
    | zero => simp at hfuel
    | succ f =>
      rw [load_config, if_neg habs]
      rw [hP]
      simp only [ringFs_lookup first pre (r :: suf') q (hP ▸ hnd.of_map _)]
      simp only [incDoc, create_file_mappings, process_sitemaps, Option.getD_none,
        Option.getD_some, List.headD_cons, List.length_nil, Nat.add_zero]
      rw [loadIncludes]
      simp only [resolveIncludePath_empty]
      have hih := ih (pre ++ [q]) r
        ⟨os_path_abspath cwd q :: st.visited, st.oid⟩ f
        (by rw [hP, List.append_assoc]; rfl)
        (by
          intro x
          simp only [List.map_append, List.mem_append, List.map_cons, List.map_nil,
            List.mem_cons, List.not_mem_nil, or_false, List.mem_singleton]
          constructor
          · rintro (hx | hx)
            · exact Or.inr hx
            · exact Or.inl ((hvis x).mp hx)
          · rintro (hx | hx)
            · exact Or.inr ((hvis x).mpr hx)
            · exact Or.inl hx)
        (by rw [List.length_cons] at hfuel; omega)
      rcases hsub : load_config Ep Es (ringFs first (pre ++ q :: r :: suf')) cwd f r
          ⟨os_path_abspath cwd q :: st.visited, st.oid⟩ with ⟨res, stX⟩
      rw [hP] at hih
      rw [hsub] at hih
      simp only at hih
      rw [hih]

/-- C5: (a) for every include graph admitting a rank function decreasing
along (absolute-path) include edges — the finite-graph formulation of
acyclicity — with all referenced documents present and no scalar-`loc`
sitemap entries, resolution with sufficient fuel terminates successfully
with exactly one merged document and the visited set restored; (b) for the
cyclic include graph of any length `N >= 1` (a ring of documents each
including the next, the last including the first, including the
self-include `N = 1`), resolution fails with the cyclic-include error. -/
theorem c5_theorem :
    (∀ (Ep : EnumBy PyObj pyEq) (Es : EnumBy String (fun a b => a = b))
        (cfgFs : List (String × RawConfig)) (cwd : String) (rank : String → Nat),
        (∀ e ∈ cfgFs, ∀ i ∈ e.2.«include».getD [],
          os_path_isabs i = true ∧ (cfgLookup cfgFs i).isSome = true ∧
          rank (os_path_abspath cwd i) < rank (os_path_abspath cwd e.1)) →
        (∀ e ∈ cfgFs, ∀ s ∈ e.2.sitemaps.getD [], entryBad s = false) →
        ∀ (n fuel : Nat) (p : String) (st : LoadState),
          rank (os_path_abspath cwd p) < n →
          (cfgLookup cfgFs p).isSome = true →
          (∀ v ∈ st.visited, rank (os_path_abspath cwd p) < rank v) →
          rank (os_path_abspath cwd p) + 1 ≤ fuel →
          ∃ cfg oid', load_config Ep Es cfgFs cwd fuel p st = (.ok cfg, ⟨st.visited, oid'⟩)) ∧
    (∀ (Ep : EnumBy PyObj pyEq) (Es : EnumBy String (fun a b => a = b))
        (cwd first : String) (rest : List String) (fuel : Nat),
        ((first :: rest).map (os_path_abspath cwd)).Nodup →
        (first :: rest).length + 1 ≤ fuel →
        (load_config Ep Es (ringFs first (first :: rest)) cwd fuel first ⟨[], 0⟩).1
          = .error .cyclicInclude) := by
  constructor
  · intro Ep Es cfgFs cwd rank Hinc Hsm n
    induction n using Nat.strong_induction_on with
    | _ n IH =>
      intro fuel p st hn hlk hvis hfuel
      cases fuel with
      | zero => omega
      | succ f =>
        rw [load_config]
        have hv : os_path_abspath cwd p ∉ st.visited := by
          intro hmem
          exact absurd (hvis _ hmem) (lt_irrefl _)
        rw [if_neg hv]
        rcases hlkv : cfgLookup cfgFs p with _ | raw
        · rw [hlkv] at hlk; simp at hlk
        · simp only [hlkv]
          have hmemfs := cfgLookup_mem cfgFs p raw hlkv
          rcases hcf : create_file_mappings raw.resources_files raw.resources_dirs
              (raw.project_root.getD "") st.oid with ⟨fmaps, oid1⟩
          simp only [hcf]
          have hbads : ∀ s ∈ raw.sitemaps.getD [], entryBad s = false :=
            fun s hs => Hsm (p, raw) hmemfs s hs
          simp only [process_sitemaps_spec cwd _ hbads]
          rcases hinc : raw.«include» with _ | ips
          · simp only [hinc]
            exact ⟨_, oid1, by rw [List.erase_cons_head]⟩
          · simp only [hinc]
            have H : ∀ i ∈ ips, ∀ s : LoadState,
                s.visited = (⟨os_path_abspath cwd p :: st.visited, oid1⟩ : LoadState).visited →
                ∃ c o, (fun p s => load_config Ep Es cfgFs cwd f p s)
                    (resolveIncludePath (raw.project_root.getD "") i) s
                  = (.ok c, ⟨s.visited, o⟩) := by
              intro i hi s hs
              have hii : i ∈ raw.«include».getD [] := by
                rw [hinc]; exact hi
              obtain ⟨hiabs, hilk, hirank0⟩ := Hinc (p, raw) hmemfs i hii
              have hirank : rank (os_path_abspath cwd i) < rank (os_path_abspath cwd p) :=
                hirank0
              rw [resolveIncludePath, if_pos hiabs]
              refine IH (rank (os_path_abspath cwd p)) hn f i s hirank hilk ?_ ?_
              · intro v hvv
                rw [hs] at hvv
                rcases List.mem_cons.mp hvv with hvv | hvv
                · exact hvv ▸ hirank
                · exact lt_trans hirank (hvis v hvv)
              · omega
            obtain ⟨cfgs, o2, hli⟩ := loadIncludes_ok _ (raw.project_root.getD "") ips
              ⟨os_path_abspath cwd p :: st.visited, oid1⟩ H
            simp only [hli]
            exact ⟨_, o2, by rw [List.erase_cons_head]⟩
  · intro Ep Es cwd first rest fuel hnd hfuel
    exact ring_cyclic_aux Ep Es cwd first (first :: rest) (by simp) hnd rest [] first
      ⟨[], 0⟩ fuel rfl (by simp) (by rw [List.length_cons] at hfuel; omega)

/-- C5 witness: part (a) at a concrete two-document acyclic tree with an
explicit rank function, and part (b) at the two-cycle `/a -> /b -> /a`. -/
theorem c5_witness :
    (∃ cfg oid', load_config pyEnum0 strEnum0
        [("/r", { «include» := some ["/s"] }), ("/s", {})] "/w" 3 "/r" ⟨[], 0⟩
      = (.ok cfg, ⟨[], oid'⟩)) ∧
    (load_config pyEnum0 strEnum0 (ringFs "/a" ["/a", "/b"]) "/w" 4 "/a" ⟨[], 0⟩).1
      = .error .cyclicInclude :=
  ⟨c5_theorem.1 pyEnum0 strEnum0 [("/r", { «include» := some ["/s"] }), ("/s", {})]
      "/w" (fun p => if p = "/r" then 1 else 0) (by decide) (by decide) 2 3 "/r" ⟨[], 0⟩
      (by decide) (by decide) (by decide) (by decide),
   c5_theorem.2 pyEnum0 strEnum0 "/w" "/a" ["/b"] 4 (by decide) (by decide)⟩

theorem dictGet_cons (a : String × Option (List PyObj)) (rest : MDict) (k : String) :
    dictGet (a :: rest) k = if a.1 = k then some a.2 else dictGet rest k := by
  by_cases h : a.1 = k <;> simp [dictGet, List.find?, h]

theorem dictGet_map_set (k : String) (v : Option (List PyObj)) :
    ∀ d : MDict, (List.find? (fun e => e.1 = k) d).isSome = true →
      dictGet (d.map (fun e => if e.1 = k then (k, v) else e)) k = some v := by
  intro d
  induction d with
  | nil => intro h; simp [List.find?] at h
  | cons a rest ih =>
    intro h
    by_cases ha : a.1 = k
    · rw [List.map_cons, if_pos ha, dictGet_cons, if_pos rfl]
    · rw [List.map_cons, if_neg ha, dictGet_cons, if_neg ha]
      refine ih ?_
      rwa [List.find?_cons_of_neg rest (by simpa using ha)] at h

theorem dictGet_append_set (k : String) (v : Option (List PyObj)) :
    ∀ d : MDict, dictGet d k = none → dictGet (d ++ [(k, v)]) k = some v := by
  intro d
  induction d with
  | nil => intro _; simp [dictGet, List.find?]
  | cons a rest ih =>
    intro h
    rw [dictGet_cons] at h
    by_cases ha : a.1 = k
    · rw [if_pos ha] at h; exact Option.noConfusion h
    · rw [if_neg ha] at h
      rw [List.cons_append, dictGet_cons, if_neg ha]
      exact ih h

theorem dictGet_none_of_find?_not (k : String) :
    ∀ d : MDict, (List.find? (fun e => e.1 = k) d).isSome = false → dictGet d k = none := by
  intro d h
  rw [dictGet]
  rcases ho : List.find? (fun e => e.1 = k) d with _ | e
  · rw [ho]; rfl
  · rw [ho] at h; simp at h

theorem dictGet_dictSet_self (d : MDict) (k : String) (v : Option (List PyObj)) :
    dictGet (dictSet d k v) k = some v := by
  rw [dictSet]
  by_cases h : (List.find? (fun e => e.1 = k) d).isSome = true
  · rw [if_pos h]
    exact dictGet_map_set k v d h
  · rw [if_neg h]
    refine dictGet_append_set k v d (dictGet_none_of_find?_not k d ?_)
    cases hx : (List.find? (fun e => e.1 = k) d).isSome
    · rfl
    · exact absurd hx h

theorem dictGet_map_ne (k key : String) (hne : key ≠ k) (v : Option (List PyObj)) :
    ∀ d : MDict,
      dictGet (d.map (fun e => if e.1 = key then (key, v) else e)) k = dictGet d k := by
  intro d
  induction d with
  | nil => rfl
  | cons a rest ih =>
    by_cases ha : a.1 = key
    · rw [List.map_cons, if_pos ha, dictGet_cons, dictGet_cons,
        if_neg (show ¬((key, v).1 = k) from hne),
        if_neg (fun he => hne (by rw [ha] at he; exact he)), ih]
    · rw [List.map_cons, if_neg ha, dictGet_cons, dictGet_cons, ih]

theorem dictGet_append_ne (k key : String) (hne : key ≠ k) (v : Option (List PyObj)) :
    ∀ d : MDict, dictGet (d ++ [(key, v)]) k = dictGet d k := by
  intro d
  induction d with
  | nil => simp [dictGet, List.find?, hne]
  | cons a rest ih =>
    rw [List.cons_append, dictGet_cons, dictGet_cons, ih]

theorem dictGet_dictSet_ne (d : MDict) (k key : String) (hne : key ≠ k)
    (v : Option (List PyObj)) :
    dictGet (dictSet d key v) k = dictGet d k := by
  rw [dictSet]
  by_cases h : (List.find? (fun e => e.1 = key) d).isSome = true
  · rw [if_pos h]
    exact dictGet_map_ne k key hne v d
  · rw [if_neg h]
    exact dictGet_append_ne k key hne v d

theorem merge_key_step_get_ne (Ep : EnumBy PyObj pyEq) (Es : EnumBy String (fun a b => a = b))
    (cwd : String) (ds : List MDict) (init : MDict) (key k : String) (h : key ≠ k) :
    dictGet (merge_key_step Ep Es cwd ds init key) k = dictGet init k := by
  rw [merge_key_step]
  rcases hv : merge_vs ds key with _ | ⟨v0, vs⟩
  · rfl
  · exact dictGet_dictSet_ne init k key h _

theorem merge_fold_get_not_mem (Ep : EnumBy PyObj pyEq) (Es : EnumBy String (fun a b => a = b))
    (cwd : String) (ds : List MDict) :
    ∀ (keys : List String) (init : MDict) (k : String), k ∉ keys →
      dictGet (keys.foldl (merge_key_step Ep Es cwd ds) init) k = dictGet init k := by
  intro keys
  induction keys with
  | nil => intro init k _; rfl
  | cons key keys ih =>
    intro init k hk
    rw [List.foldl_cons, ih _ k (fun hm => hk (List.mem_cons_of_mem _ hm))]
    exact merge_key_step_get_ne Ep Es cwd ds init key k
      (fun he => hk (by rw [← he]; exact List.mem_cons_self _ _))

theorem merge_fold_get_mem (Ep : EnumBy PyObj pyEq) (Es : EnumBy String (fun a b => a = b))
    (cwd : String) (ds : List MDict) :
    ∀ (keys : List String) (init : MDict) (k : String), k ∈ keys → keys.Nodup →
      dictGet (keys.foldl (merge_key_step Ep Es cwd ds) init) k
        = (match merge_vs ds k with
           | [] => dictGet init k
           | v0 :: _ => some (some (if pyIsDeduplicatable v0
               then Deduplicatable_deduplicate Ep Es cwd (merge_vs ds k)
               else merge_vs ds k))) := by
  intro keys
  induction keys with
  | nil => intro init k hk; simp at hk
  | cons key keys ih =>
    intro init k hk hnd
    rw [List.foldl_cons]
    by_cases he : key = k
    · subst he
      have hnot : key ∉ keys := (List.nodup_cons.mp hnd).1
      rw [merge_fold_get_not_mem Ep Es cwd ds keys _ key hnot]
      rw [merge_key_step]
      rcases hv : merge_vs ds key with _ | ⟨v0, vs⟩
      · rfl
      · simp only [hv]
        rw [dictGet_dictSet_self]
    · have hk' : k ∈ keys := by
        rcases List.mem_cons.mp hk with h | h
        · exact absurd h.symm he
        · exact h
      rw [ih _ k hk' (List.nodup_cons.mp hnd).2]
      rcases hv : merge_vs ds k with _ | ⟨v0, vs⟩
      · simp only [hv]
        exact merge_key_step_get_ne Ep Es cwd ds init key k he
      · simp only [hv]

theorem merge_vs_mergeDict (A B C : Config) (k : String)
    (f : Config → Option (List PyObj))
    (hf : ∀ cf : Config, dictGet cf.mergeDict k = some (f cf)) :
    merge_vs [A.mergeDict, B.mergeDict, C.mergeDict] k
      = optList (f A) ++ optList (f B) ++ optList (f C) := by
  rw [merge_vs]
  simp only [List.foldl_cons, List.foldl_nil, hf]
  rcases f A with _ | la <;> rcases f B with _ | lb <;> rcases f C with _ | lc <;>
    simp [optList]

theorem merged_command_field (Ep : EnumBy PyObj pyEq) (Es : EnumBy String (fun a b => a = b))
    (cwd : String) (A B C : Config) (k : String) (f : Config → Option (List PyObj))
    (hf : ∀ cf : Config, dictGet cf.mergeDict k = some (f cf))
    (hk : k ∈ mergeKeys)
    (hstr : ∀ d ∈ [A, B, C], isStrList (f d) = true) :
    (dictGet (_merge_listdict Ep Es cwd [A.mergeDict, B.mergeDict, C.mergeDict] mergeKeys)
        k).getD none
      = spec_merged_commands (f A) (f B) (f C) := by
  rw [_merge_listdict]
  rw [show ([A.mergeDict, B.mergeDict, C.mergeDict] : List MDict).getLastD []
        = C.mergeDict from rfl]
  rw [merge_fold_get_mem Ep Es cwd _ mergeKeys C.mergeDict k hk (by decide)]
  have hvs := merge_vs_mergeDict A B C k f hf
  rw [spec_merged_commands]
  rcases hv : merge_vs [A.mergeDict, B.mergeDict, C.mergeDict] k with _ | ⟨v0, vs⟩
  · rw [hv] at hvs
    rw [if_pos hvs.symm]
    simp [hf C]
  · rw [hv] at hvs
    rw [if_neg (by rw [← hvs]; simp)]
    have hv0mem : v0 ∈ optList (f A) ++ optList (f B) ++ optList (f C) := by
      rw [← hvs]; exact List.mem_cons_self _ _
    have hstr0 : pyIsDeduplicatable v0 = false := by
      have hstr' : ∀ (d : Config), d ∈ [A, B, C] → ∀ x ∈ optList (f d),
          pyIsDeduplicatable x = false := by
        intro d hd x hx
        have := hstr d hd
        rw [isStrList] at this
        have hall := List.all_eq_true.mp this x hx
        cases x <;> first | rfl | simp at hall
      rcases List.mem_append.mp hv0mem with h0 | h0
      · rcases List.mem_append.mp h0 with h1 | h1
        · exact hstr' A (by simp) v0 h1
        · exact hstr' B (by simp) v0 h1
      · exact hstr' C (by simp) v0 h0
    simp only [hv, hstr0, Bool.false_eq_true, if_false, Option.getD_some]
    rw [hvs]

theorem merged_dedup_field (Ep : EnumBy PyObj pyEq) (Es : EnumBy String (fun a b => a = b))
    (cwd : String) (A B C : Config) (k : String) (f : Config → List PyObj)
    (hf : ∀ cf : Config, dictGet cf.mergeDict k = some (some (f cf)))
    (hk : k ∈ mergeKeys) :
    ((dictGet (_merge_listdict Ep Es cwd [A.mergeDict, B.mergeDict, C.mergeDict] mergeKeys)
        k).getD none).getD []
      = spec_merged_dedup Ep Es cwd (f A) (f B) (f C) (f C) := by
  rw [_merge_listdict]
  rw [show ([A.mergeDict, B.mergeDict, C.mergeDict] : List MDict).getLastD []
        = C.mergeDict from rfl]
  rw [merge_fold_get_mem Ep Es cwd _ mergeKeys C.mergeDict k hk (by decide)]
  have hvs := merge_vs_mergeDict A B C k (fun c => some (f c)) hf
  simp only [optList, Option.getD_some] at hvs
  rw [spec_merged_dedup]
  rcases hv : merge_vs [A.mergeDict, B.mergeDict, C.mergeDict] k with _ | ⟨v0, vs⟩
  · rw [hv] at hvs
    rw [show f A ++ f B ++ f C = ([] : List PyObj) from hvs.symm]
    simp [hf C]
  · rw [hv] at hvs
    rw [show f A ++ f B ++ f C = v0 :: vs from hvs.symm]
    simp only [hv, Option.getD_some]

/-- C2 (amended): merging included documents `[A, B]` with current document
`C` concatenates each list field in include order with the current document
last, but deduplication applies only to fields whose first element's class is
`Deduplicatable`: the four command-list fields, whose elements are plain
strings, are **not** deduplicated (repeats survive; when all contributions
are empty the current document's value is kept); the three object-list
fields are deduplicated as the concatenation's head dictates; sitemap
deduplication does preserve the first-occurrence order of paths and unions
the `loc` sets; the generic set-based deduplication guarantees only a
duplicate-free result in an implementation-defined enumeration order, not
first-occurrence order. -/
theorem c2_theorem (Ep : EnumBy PyObj pyEq) (Es : EnumBy String (fun a b => a = b))
    (cwd : String) (A B C : Config) :
    ((∀ d ∈ [A, B, C], isStrList d.pre_commands = true) →
      (mergeConfigs Ep Es cwd [A, B, C]).pre_commands
        = spec_merged_commands A.pre_commands B.pre_commands C.pre_commands) ∧
    ((∀ d ∈ [A, B, C], isStrList d.local_pre_commands = true) →
      (mergeConfigs Ep Es cwd [A, B, C]).local_pre_commands
        = spec_merged_commands A.local_pre_commands B.local_pre_commands
            C.local_pre_commands) ∧
    ((∀ d ∈ [A, B, C], isStrList d.post_commands = true) →
      (mergeConfigs Ep Es cwd [A, B, C]).post_commands
        = spec_merged_commands A.post_commands B.post_commands C.post_commands) ∧
    ((∀ d ∈ [A, B, C], isStrList d.local_post_commands = true) →
      (mergeConfigs Ep Es cwd [A, B, C]).local_post_commands
        = spec_merged_commands A.local_post_commands B.local_post_commands
            C.local_post_commands) ∧
    ((mergeConfigs Ep Es cwd [A, B, C]).file_mappings
      = spec_merged_dedup Ep Es cwd A.file_mappings B.file_mappings
          C.file_mappings C.file_mappings) ∧
    ((mergeConfigs Ep Es cwd [A, B, C]).all_sitemaps
      = spec_merged_dedup Ep Es cwd A.all_sitemaps B.all_sitemaps
          C.all_sitemaps C.all_sitemaps) ∧
    ((mergeConfigs Ep Es cwd [A, B, C]).deduplicatable_files
      = spec_merged_dedup Ep Es cwd A.deduplicatable_files B.deduplicatable_files
          C.deduplicatable_files C.deduplicatable_files) ∧
    (∀ ts : List SitemapUpdateTask, (∀ t ∈ ts, pathlib_resolve cwd t.path = t.path) →
      ((deduplicate_sitemaps cwd Es ts).map (fun t => t.path)
          = dedupBy (fun a b => a = b) (ts.map (fun t => t.path))
        ∧ ∀ p u : String,
            ((∃ t ∈ deduplicate_sitemaps cwd Es ts, t.path = p ∧ u ∈ t.loc)
              ↔ (∃ t ∈ ts, t.path = p ∧ u ∈ t.loc)))) ∧
    (∀ (x : PyObj) (xs : List PyObj), pyIsTask x = false →
      (Deduplicatable_deduplicate Ep Es cwd (x :: xs)).Pairwise
        (fun a b => pyEq a b = false)) := by
  refine ⟨?_, ?_, ?_, ?_, ?_, ?_, ?_, ?_, ?_⟩
  · intro hstr
    rw [show (mergeConfigs Ep Es cwd [A, B, C]).pre_commands
          = (dictGet (_merge_listdict Ep Es cwd [A.mergeDict, B.mergeDict, C.mergeDict]
              mergeKeys) "pre_commands").getD none from rfl]
    exact merged_command_field Ep Es cwd A B C "pre_commands"
      (fun c => c.pre_commands) (fun cf => rfl) (by decide) hstr
  · intro hstr
    rw [show (mergeConfigs Ep Es cwd [A, B, C]).local_pre_commands
          = (dictGet (_merge_listdict Ep Es cwd [A.mergeDict, B.mergeDict, C.mergeDict]
              mergeKeys) "local_pre_commands").getD none from rfl]
    exact merged_command_field Ep Es cwd A B C "local_pre_commands"
      (fun c => c.local_pre_commands) (fun cf => rfl) (by decide) hstr
  · intro hstr
    rw [show (mergeConfigs Ep Es cwd [A, B, C]).post_commands
          = (dictGet (_merge_listdict Ep Es cwd [A.mergeDict, B.mergeDict, C.mergeDict]
              mergeKeys) "post_commands").getD none from rfl]
    exact merged_command_field Ep Es cwd A B C "post_commands"
      (fun c => c.post_commands) (fun cf => rfl) (by decide) hstr
  · intro hstr
    rw [show (mergeConfigs Ep Es cwd [A, B, C]).local_post_commands
          = (dictGet (_merge_listdict Ep Es cwd [A.mergeDict, B.mergeDict, C.mergeDict]
              mergeKeys) "local_post_commands").getD none from rfl]
    exact merged_command_field Ep Es cwd A B C "local_post_commands"
      (fun c => c.local_post_commands) (fun cf => rfl) (by decide) hstr
  · rw [show (mergeConfigs Ep Es cwd [A, B, C]).file_mappings
          = ((dictGet (_merge_listdict Ep Es cwd [A.mergeDict, B.mergeDict, C.mergeDict]
              mergeKeys) "_file_mappings").getD none).getD [] from rfl]
    exact merged_dedup_field Ep Es cwd A B C "_file_mappings"
      (fun c => c.file_mappings) (fun cf => rfl) (by decide)
  · rw [show (mergeConfigs Ep Es cwd [A, B, C]).all_sitemaps
          = ((dictGet (_merge_listdict Ep Es cwd [A.mergeDict, B.mergeDict, C.mergeDict]
              mergeKeys) "_all_sitemaps").getD none).getD [] from rfl]
    exact merged_dedup_field Ep Es cwd A B C "_all_sitemaps"
      (fun c => c.all_sitemaps) (fun cf => rfl) (by decide)
  · rw [show (mergeConfigs Ep Es cwd [A, B, C]).deduplicatable_files
          = ((dictGet (_merge_listdict Ep Es cwd [A.mergeDict, B.mergeDict, C.mergeDict]
              mergeKeys) "_deduplicatable_files").getD none).getD [] from rfl]
    exact merged_dedup_field Ep Es cwd A B C "_deduplicatable_files"
      (fun c => c.deduplicatable_files) (fun cf => rfl) (by decide)
  · intro ts hcanon
    have hinv : ∀ e ∈ dedupSitemapsFold cwd Es ts [], e.2.path = e.1 :=
      dedupSitemapsFold_pathinv cwd Es ts [] hcanon (by intro e he; simp at he)
    constructor
    · have hkeys := dedupSitemapsFold_keys cwd Es ts []
      rw [deduplicate_sitemaps, List.map_map]
      have hmap : (dedupSitemapsFold cwd Es ts []).map ((fun t => t.path) ∘ Prod.snd)
          = (dedupSitemapsFold cwd Es ts []).map Prod.fst :=
        List.map_congr_left (fun e he => hinv e he)
      rw [hmap, hkeys]
      simp only [List.map_nil, List.nil_append, assocHas_nil, Bool.not_false,
        List.filter_true]
    · intro p u
      have hlocs := dedupSitemapsFold_locs cwd Es ts [] p u
      rw [deduplicate_sitemaps]
      constructor
      · rintro ⟨t, ht, hp, hu⟩
        obtain ⟨e, he, het⟩ := List.mem_map.mp ht
        have h1 : e.1 = p := by rw [← hinv e he, het]; exact hp
        have h2 : u ∈ e.2.loc := by rw [het]; exact hu
        rcases hlocs.mp ⟨e, he, h1, h2⟩ with h | h
        · obtain ⟨e', he', _⟩ := h
          simp at he'
        · exact h
      · intro h
        obtain ⟨e, he, hp, hu⟩ := hlocs.mpr (Or.inr h)
        refine ⟨e.2, List.mem_map.mpr ⟨e, he, rfl⟩, ?_, hu⟩
        rw [hinv e he]
        exact hp
  · intro x xs hx
    have hred : Deduplicatable_deduplicate Ep Es cwd (x :: xs) = Ep.enum (x :: xs) := by
      cases x with
      | task t => simp [pyIsTask] at hx
      | str s => rfl
      | shellCmd c => rfl
      | fileMapping f => rfl
      | dirMapping f o => rfl
    rw [hred]
    exact Ep.nodup (x :: xs)

/-- C2 witness: a concrete merge of three documents whose `pre_commands`
both hold the string `a` (the amended law applies, keeping both copies), a
concrete sitemap deduplication keeping first-occurrence path order, and a
concrete duplicate-free generic deduplication. -/
theorem c2_witness :
    ((mergeConfigs pyEnum0 strEnum0 "/w"
        [{ pre_commands := some [PyObj.str "a"] }, {},
         { pre_commands := some [PyObj.str "a"] }]).pre_commands
      = spec_merged_commands (some [PyObj.str "a"]) none (some [PyObj.str "a"]))
    ∧ ((deduplicate_sitemaps "/w" strEnum0
          [⟨"/w/s.xml", "s.xml", ["u"]⟩, ⟨"/w/s.xml", "s.xml", ["v"]⟩]).map
            (fun t => t.path)
        = dedupBy (fun a b => a = b) ["/w/s.xml", "/w/s.xml"])
    ∧ (Deduplicatable_deduplicate pyEnum0 strEnum0 "/w"
          [PyObj.str "a", PyObj.str "a"]).Pairwise (fun a b => pyEq a b = false) := by
  refine ⟨?_, ?_, ?_⟩
  · exact (c2_theorem pyEnum0 strEnum0 "/w"
      { pre_commands := some [PyObj.str "a"] } {}
      { pre_commands := some [PyObj.str "a"] }).1 (by decide)
  · exact ((c2_theorem pyEnum0 strEnum0 "/w" {} {} {}).2.2.2.2.2.2.2.1
      [⟨"/w/s.xml", "s.xml", ["u"]⟩, ⟨"/w/s.xml", "s.xml", ["v"]⟩] (by decide)).1
  · exact (c2_theorem pyEnum0 strEnum0 "/w" {} {} {}).2.2.2.2.2.2.2.2
      (PyObj.str "a") [PyObj.str "a"] (by decide)

/-- C2 counterexample to the unamended claim: a document with
`pre_commands = [x]` including a document with `pre_commands = [x]` loads
to a merged `pre_commands` of `[x, x]` — the repeat survives — whereas
dedup-of-concatenation would give `[x]`. -/
theorem c2_counterexample :
    ((load_config pyEnum0 strEnum0
        [("/C", { «include» := some ["/A", "/B"], pre_commands := some ["x"] }),
         ("/A", { pre_commands := some ["x"] }),
         ("/B", {})]
        "/w" 5 "/C" ⟨[], 0⟩).1.map (fun c => c.pre_commands)
      = .ok (some [PyObj.str "x", PyObj.str "x"]))
    ∧ dedupBy pyEq [PyObj.str "x", PyObj.str "x"] = [PyObj.str "x"] := by
  constructor
  · decide
  · have h1 : List.filter (fun b => !pyEq (PyObj.str "x") b) [PyObj.str "x"]
        = [] := by decide
    rw [dedupBy, h1, dedupBy]

end QSync
